import Mathlib

/-
Verification development for treecrypt.py.

The program walks a directory tree; at each directory it either archives the
directory's immediate files into a password-protected sibling archive
`<path>.7z` and deletes the originals (encrypt), or extracts every immediate
file named `*.7z` into a directory named after the archive and deletes the
archive (decrypt).  The external archiver (7z) and the external removal
command (rmrf) are modelled symbolically; everything else is a direct
translation of the source.

Model conventions:
  * a directory's contents are a finite association list of file names to
    contents together with an association list of subdirectory names to
    subtrees, mirroring the shallow `next(os.walk(path))` listing;
  * file contents are either raw bytes or a symbolic encrypted archive
    holding a password and the archived entries (7z is invoked with
    `-mhe=on`, so the entry list is unreadable without the password);
  * the archiver is an oracle (`Arch`) deciding, per invocation, whether the
    external process exits zero, letting theorems quantify over archiver
    failures; extraction additionally requires a matching password;
  * commands run through the shell receive file names as opaque atoms; the
    spec declares names containing shell metacharacters out of contract
    (spec section 9), so shell word-splitting is not modelled;
  * raised exceptions are modelled by an `err` field: once set, the remaining
    work of every enclosing call is skipped, while filesystem mutations
    already performed persist.
-/

/-- Content of a file: raw bytes, or a password-protected archive produced by
the archiver holding the archived entries. -/
inductive Content where
  | bytes (data : List Nat)
  | archive (pw : String) (entries : List (String × Content))

/-- Directory tree: immediate files and immediate subdirectories, in listing
order. -/
inductive FTree where
  | node (files : List (String × Content)) (dirs : List (String × FTree))

/-- Immediate files of a directory. -/
def FTree.files : FTree → List (String × Content)
  | .node fs _ => fs

/-- Immediate subdirectories of a directory. -/
def FTree.dirs : FTree → List (String × FTree)
  | .node _ ds => ds

/-- Names of the immediate subdirectories of a directory. -/
def dirNamesOf (t : FTree) : List String := t.dirs.map Prod.fst

/-- Lookup in an association list keyed by names (first match). -/
def lookupA {α : Type} : List (String × α) → String → Option α
  | [], _ => none
  | (k, v) :: rest, n => if k = n then some v else lookupA rest n

/-- Insert-or-overwrite in an association list: overwrites the first entry
with the given key, otherwise appends at the end. -/
def upsertA {α : Type} : List (String × α) → String → α → List (String × α)
  | [], n, v => [(n, v)]
  | (k, w) :: rest, n, v =>
    if k = n then (n, v) :: rest else (k, w) :: upsertA rest n v

/-- Remove the first entry with the given key, if any. -/
def removeA {α : Type} : List (String × α) → String → List (String × α)
  | [], _ => []
  | (k, w) :: rest, n => if k = n then rest else (k, w) :: removeA rest n

/-- Sequentially upsert a list of entries (left to right). -/
def upsertList {α : Type} (base : List (String × α)) (es : List (String × α)) :
    List (String × α) :=
  es.foldl (fun acc e => upsertA acc e.1 e.2) base

/-- Sequentially remove a list of keys (left to right). -/
def removeKeys {α : Type} (base : List (String × α)) (ks : List String) :
    List (String × α) :=
  ks.foldl (fun acc k => removeA acc k) base

/-- Characters of the fixed archive extension. -/
def sevenZChars : List Char := ['.', '7', 'z']

/-- Fixed archive extension used by the program. -/
def sevenZ : String := String.mk sevenZChars

/-- Translation of Python `filename.endswith('.7z')` (line 100). -/
def ends7z (s : String) : Bool := List.isSuffixOf sevenZChars s.data

/-- Split a character list at its last dot: returns the part before the last
dot and the (dot-free) part after it, if the list has a dot at all. -/
def splitLastDot : List Char → Option (List Char × List Char)
  | [] => none
  | c :: rest =>
    match splitLastDot rest with
    | some (p, q) => some (c :: p, q)
    | none => if c = ('.' : Char) then some ([], rest) else none

/-- Root part of Python `os.path.splitext` for a bare file name (line 104):
the name is cut at its last dot, except that a name whose characters before
the last dot are all dots (a leading-dot file such as `.7z`) is returned
whole. -/
def pySplitextRootL (l : List Char) : List Char :=
  match splitLastDot l with
  | some (pre, _) => if pre.any (fun c => c ≠ ('.' : Char)) then pre else l
  | none => l

/-- String version of `pySplitextRootL`. -/
def pySplitextRoot (s : String) : String := String.mk (pySplitextRootL s.data)

/-- Spec-side reading of "archive file name with the extension stripped":
drop the trailing three characters `.7z`. -/
def strip7z (s : String) : String := String.mk (s.data.take (s.data.length - 3))

/-- Archiver oracle: decides, per invocation, whether the external 7z process
exits zero, and (for compression) whether a file materialises at the archive
path; this keeps theorems honest about runs in which the archiver fails. -/
structure Arch where
  compressOk : List String → Bool
  compressCreates : List String → Bool
  extractOk : List String → String → Bool

/-- Archiver that always succeeds and always materialises its output. -/
def idealArch : Arch :=
  ⟨fun _ => true, fun _ => true, fun _ _ => true⟩

/-- Errors: a non-zero exit of the external archiver raised by `call`
(lines 68-70), or a failing filesystem command such as `mkdir -p` hitting an
existing file. -/
inductive Err where
  | archiver
  | fsOp
deriving DecidableEq

/-- Observable events of a run, in order.  `p` is the directory the event
belongs to.  `rmBraces` records the literal shell command
`rm -rf` followed by the text left by the unprefixed format string of
line 82; `compress` records the 7z archive invocation together with whether a
file already existed at the archive path at that moment; `extract` records
the 7z extract invocation together with whether the destination existed as a
directory at that moment. -/
inductive Ev where
  | visit (p : List String)
  | rmBraces (p : List String)
  | compress (p : List String) (stale : Bool)
  | removeFiles (p : List String) (names : List String)
  | mkdirAt (p : List String) (archiveName : String) (dest : String)
  | extract (p : List String) (archiveName : String) (dest : String) (destIsDir : Bool)
  | removeFile (p : List String) (archiveName : String)
deriving DecidableEq

/-- Directory an event belongs to. -/
def pathOf : Ev → List String
  | .visit p => p
  | .rmBraces p => p
  | .compress p _ => p
  | .removeFiles p _ => p
  | .mkdirAt p _ _ => p
  | .extract p _ _ _ => p
  | .removeFile p _ => p

/-- Whether an event is a directory visit. -/
def isVisit : Ev → Bool
  | .visit _ => true
  | _ => false

/-- Paths of the visit events of a trace, in order. -/
def visitPaths (tr : List Ev) : List (List String) :=
  tr.filterMap (fun e => match e with
    | Ev.visit p => some p
    | _ => none)

/-- Archive names whose `mkdir` step was reached at directory `P`, in
order: the per-archive processing of the decrypt loop starts with
`mkdir -p`. -/
def attemptedAt (P : List String) (tr : List Ev) : List String :=
  tr.filterMap (fun e => match e with
    | Ev.mkdirAt p a _ => if p = P then some a else none
    | _ => none)

/-- Archive names whose extract invocation was reached, in order. -/
def extractNames (tr : List Ev) : List String :=
  tr.filterMap (fun e => match e with
    | Ev.extract _ a _ _ => some a
    | _ => none)

/-- Result of `encrypt(path, password)` on one directory: the parent
directory's files (the archive `<path>.7z` lives there), the directory's
subtree, the returned `empty` flag, the process working directory after the
call, the event trace, and the propagated exception if any. -/
structure EncR where
  pf : List (String × Content)
  t : FTree
  empty : Bool
  cwd : List String
  tr : List Ev
  err : Option Err

/-- Result of the recursion of `encrypt` over a list of subdirectories:
final files of the current directory (each archived child adds its sibling
archive here), the updated subdirectory list, trace, error. -/
structure ChR where
  pfD : List (String × Content)
  ds : List (String × FTree)
  tr : List Ev
  err : Option Err

/-- Outcome of the archiver compress invocation of line 85.  `none` is a
non-zero exit (raised by `call`).  7z `a` onto an existing archive updates it
(the stale entries are kept and the new ones upserted); onto an existing
non-archive file it fails.  On success, a file materialises at the archive
path only if the oracle says so (the code re-checks with `os.path.isfile`
before deleting, line 86). -/
def compressResult (A : Arch) (pw : String) (P : List String)
    (pf : List (String × Content)) (aname : String)
    (fs : List (String × Content)) : Option (List (String × Content)) :=
  match lookupA pf aname with
  | some (Content.bytes _) => none
  | some (Content.archive _ old) =>
    if A.compressOk P then
      if A.compressCreates P then
        some (upsertA pf aname (Content.archive pw (upsertList old fs)))
      else some pf
    else none
  | none =>
    if A.compressOk P then
      if A.compressCreates P then
        some (upsertA pf aname (Content.archive pw fs))
      else some pf
    else none

mutual
/-- Translation of `encrypt(path, password)` (lines 74-93) for the directory
named `name` under the path `pp` whose parent directory holds the files
`pf`.  Shallow listing, then, if there are files: the `os.path.isfile` check
of line 81 followed by the no-op literal command of line 82 (the string
`'rm -rf ...'` lacks the f-prefix, so it names no real file and removes
nothing), then under `cd path` the archiver invocation and — only when a
file exists at the archive path — the `rmrf` of all listed file names
(`rmrf` is an external recursive-remove command; Modelled from the spec:
the spec's section 9 identifies `rmrf` as an undefined external
recursive-removal command, modelled here as removing the named entries).
Afterwards the recursion over the subdirectory names collected by the
listing.  The `cd` context manager restores the previous working directory
on both the normal and the raising path (lines 46-51). -/
def encD (A : Arch) (pw : String) (pp : List String) (name : String)
    (pf : List (String × Content)) (cwd : List String) : FTree → EncR
  | .node fs ds =>
    let P := pp ++ [name]
    let aname := name ++ sevenZ
    if fs.isEmpty then
      let c := encChildren A pw P fs cwd ds
      ⟨pf, .node c.pfD c.ds, true, cwd, Ev.visit P :: c.tr, c.err⟩
    else
      let stale := (lookupA pf aname).isSome
      let tr0 := Ev.visit P :: (if stale then [Ev.rmBraces P] else [])
      let cwd1 := P
      let tr1 := tr0 ++ [Ev.compress cwd1 stale]
      match compressResult A pw P pf aname fs with
      | none =>
        ⟨pf, .node fs ds, true, cwd, tr1, some Err.archiver⟩
      | some pf1 =>
        let doomed := (lookupA pf1 aname).isSome
        let fs1 := if doomed then removeKeys fs (fs.map Prod.fst) else fs
        let tr2 := tr1 ++ (if doomed then [Ev.removeFiles cwd1 (fs.map Prod.fst)] else [])
        let cwd2 := cwd
        let c := encChildren A pw P fs1 cwd2 ds
        ⟨pf1, .node c.pfD c.ds, false, cwd2, tr2 ++ c.tr, c.err⟩

/-- Recursion of `encrypt` over the subdirectory names collected before any
mutation (lines 89-92): each child is encrypted with the same password; its
archive is added to the current directory's files `pfD`; the child's
returned flag is discarded (bound to the dead local `empty1`).  A raised
exception aborts the loop, leaving the remaining children untouched. -/
def encChildren (A : Arch) (pw : String) (P : List String)
    (pfD : List (String × Content)) (cwd : List String) :
    List (String × FTree) → ChR
  | [] => ⟨pfD, [], [], none⟩
  | (cn, ct) :: rest =>
    let r := encD A pw P cn pfD cwd ct
    match r.err with
    | some e => ⟨r.pf, (cn, r.t) :: rest, r.tr, some e⟩
    | none =>
      let c := encChildren A pw P r.pf cwd rest
      ⟨c.pfD, (cn, r.t) :: c.ds, r.tr ++ c.tr, c.err⟩
end

/-- Result of `decrypt(path, password)` on one directory: updated subtree,
returned `empty` flag, process working directory after the call, trace,
propagated exception. -/
structure DecR where
  t : FTree
  empty : Bool
  cwd : List String
  tr : List Ev
  err : Option Err

/-- Result of the recursion of `decrypt` over subdirectories. -/
structure DChR where
  ds : List (String × FTree)
  tr : List Ev
  err : Option Err

/-- State of the archive loop of `decrypt` (lines 102-107) over one
directory: current files of the directory, names currently existing as
directories there, extracted entries pending per destination directory (the
writes the loop performed into destination directories, keyed by
destination), names of destination directories newly created by the loop (in
creation order), trace, error. -/
structure LoopSt where
  fs : List (String × Content)
  dnames : List String
  pend : List (String × List (String × Content))
  newd : List String
  tr : List Ev
  err : Option Err

/-- Entries already written into a given destination directory. -/
def getPend (pend : List (String × List (String × Content))) (n : String) :
    List (String × Content) :=
  (lookupA pend n).getD []

/-- Record entries written into a destination directory. -/
def addPend (pend : List (String × List (String × Content))) (dest : String)
    (es : List (String × Content)) : List (String × List (String × Content)) :=
  match lookupA pend dest with
  | some old => upsertA pend dest (old ++ es)
  | none => pend ++ [(dest, es)]

/-- Apply the pending writes to subdirectories without visiting them (used
when an exception aborts the walk after the loop already wrote into them:
the writes persist on disk). -/
def applyPend (pend : List (String × List (String × Content))) :
    List (String × FTree) → List (String × FTree)
  | [] => []
  | (cn, FTree.node cfs cds) :: rest =>
    (cn, FTree.node (upsertList cfs (getPend pend cn)) cds) :: applyPend pend rest

/-- Destination directories newly created by the loop, materialised as fresh
directories holding the entries extracted into them.  They are appended
after the pre-existing subdirectories; the recursion never visits them
because the subdirectory names were collected before the loop ran. -/
def newDests (st : LoopSt) : List (String × FTree) :=
  st.newd.map (fun d => (d, FTree.node (getPend st.pend d) []))

/-- The 7z extract invocation of line 106 and the archive removal of
line 107 for one archive.  Extraction reads the archive file, requires the
oracle to let the process succeed and the stored password to match
(`-mhe=on` archives are unreadable otherwise), refuses to overwrite an
existing subdirectory of the destination with an extracted file, writes the
entries into the destination (overwriting files of equal name), and on
success the archive file is removed by `rmrf` (Modelled from the spec: the
spec's section 9 identifies `rmrf` as an undefined external
recursive-removal command, modelled here as removing the named file). -/
def decExtractStep (A : Arch) (pw : String) (P : List String)
    (ds : List (String × FTree)) (a dest : String) (st : LoopSt) : LoopSt :=
  let st1 : LoopSt :=
    { st with tr := st.tr ++ [Ev.extract P a dest (st.dnames.contains dest)] }
  match lookupA st1.fs a with
  | some (Content.archive pw2 es) =>
    if A.extractOk P a && (pw2 == pw) then
      let destDirs :=
        match lookupA ds dest with
        | some t => dirNamesOf t
        | none => []
      if es.any (fun e => destDirs.contains e.1) then
        { st1 with err := some Err.archiver }
      else
        { st1 with
          pend := addPend st1.pend dest es,
          fs := removeA st1.fs a,
          tr := st1.tr ++ [Ev.removeFile P a] }
    else { st1 with err := some Err.archiver }
  | some (Content.bytes _) => { st1 with err := some Err.archiver }
  | none => { st1 with err := some Err.archiver }

/-- One iteration of the archive loop (lines 102-107): compute the
destination name with `os.path.splitext`, run `mkdir -p` (a no-op if the
destination is already a directory, an error if a file occupies the name,
otherwise it creates the directory), then extract. -/
def decLoopStep (A : Arch) (pw : String) (P : List String)
    (ds : List (String × FTree)) (a : String) (st : LoopSt) : LoopSt :=
  let dest := pySplitextRoot a
  let st1 : LoopSt := { st with tr := st.tr ++ [Ev.mkdirAt P a dest] }
  if st1.dnames.contains dest then
    decExtractStep A pw P ds a dest st1
  else if (st1.fs.map Prod.fst).contains dest then
    { st1 with err := some Err.fsOp }
  else
    let st2 : LoopSt :=
      { st1 with dnames := st1.dnames ++ [dest], newd := st1.newd ++ [dest] }
    decExtractStep A pw P ds a dest st2

/-- The archive loop of `decrypt`: archives are processed in order; a raised
exception aborts the loop, so the remaining archives are not attempted. -/
def decLoop (A : Arch) (pw : String) (P : List String)
    (ds : List (String × FTree)) : List String → LoopSt → LoopSt
  | [], st => st
  | a :: rest, st =>
    let st1 := decLoopStep A pw P ds a st
    match st1.err with
    | some _ => st1
    | none => decLoop A pw P ds rest st1

mutual
/-- Translation of `decrypt(path, password)` (lines 95-112) for the
directory at path `P`.  `pending` carries the files the parent's loop
already extracted into this directory before visiting it; they are part of
this directory's on-disk state at listing time.  Shallow listing, then, if
there are files, the loop over the names ending in `.7z` under `cd path`
(the context manager restores the working directory on both the normal and
the raising path), then the recursion over the subdirectory names collected
by the listing.  The returned `empty` flag is initialised to `True` on
line 97 and never reassigned. -/
def decD (A : Arch) (pw : String) (P : List String)
    (pending : List (String × Content)) (cwd : List String) : FTree → DecR
  | .node fs ds =>
    let fs0 := upsertList fs pending
    if fs0.isEmpty then
      let c := decChildren A pw P [] cwd ds
      ⟨.node fs0 c.ds, true, cwd, Ev.visit P :: c.tr, c.err⟩
    else
      let archives := (fs0.map Prod.fst).filter ends7z
      let cwd1 := P
      let st := decLoop A pw cwd1 ds archives ⟨fs0, ds.map Prod.fst, [], [], [], none⟩
      let cwd2 := cwd
      match st.err with
      | some e =>
        ⟨.node st.fs (applyPend st.pend ds ++ newDests st), true, cwd2,
          Ev.visit P :: st.tr, some e⟩
      | none =>
        let c := decChildren A pw P st.pend cwd2 ds
        ⟨.node st.fs (c.ds ++ newDests st), true, cwd2,
          Ev.visit P :: (st.tr ++ c.tr), c.err⟩

/-- Recursion of `decrypt` over the subdirectory names collected before the
loop ran (lines 108-111): each pre-existing child is decrypted with the same
password, receiving the files the loop extracted into it; the child's
returned flag is discarded.  A raised exception aborts the loop; the writes
already performed into the remaining children persist. -/
def decChildren (A : Arch) (pw : String) (P : List String)
    (pend : List (String × List (String × Content))) (cwd : List String) :
    List (String × FTree) → DChR
  | [] => ⟨[], [], none⟩
  | (cn, ct) :: rest =>
    let r := decD A pw (P ++ [cn]) (getPend pend cn) cwd ct
    match r.err with
    | some e => ⟨(cn, r.t) :: applyPend pend rest, r.tr, some e⟩
    | none =>
      let c := decChildren A pw P pend cwd rest
      ⟨(cn, r.t) :: c.ds, r.tr ++ c.tr, c.err⟩
end

/-- Archive produced in the parent directory for one child directory, if the
child has files (spec-side closed form of a successful encrypt). -/
def childArchive (pw : String) : String × FTree → Option (String × Content)
  | (cn, FTree.node cfs _) =>
    if cfs.isEmpty then none else some (cn ++ sevenZ, Content.archive pw cfs)

mutual
/-- Closed form of a fully successful encrypt of a well-formed tree: every
directory loses its files and gains, for each child directory that had
files, the child's sibling archive. -/
def encT (pw : String) : FTree → FTree
  | .node _ ds => .node (ds.filterMap (childArchive pw)) (encTL pw ds)

/-- Closed form of encrypt over a subdirectory list. -/
def encTL (pw : String) : List (String × FTree) → List (String × FTree)
  | [] => []
  | (cn, ct) :: rest => (cn, encT pw ct) :: encTL pw rest
end

mutual
/-- Pre-order listing of the directories of a tree rooted at `P`. -/
def preorderDirs (P : List String) : FTree → List (List String)
  | .node _ ds => P :: preorderDirsL P ds

/-- Pre-order listing over a subdirectory list. -/
def preorderDirsL (P : List String) : List (String × FTree) → List (List String)
  | [] => []
  | (cn, ct) :: rest => preorderDirs (P ++ [cn]) ct ++ preorderDirsL P rest
end

/-- Whether a list of names has no duplicates. -/
def nodupKeys : List String → Bool
  | [] => true
  | n :: rest => (!rest.contains n) && nodupKeys rest

/-- Whether two name lists are disjoint. -/
def disjointKeys (xs ys : List String) : Bool :=
  xs.all (fun x => !ys.contains x)

/-- Whether a directory name contains a character other than a dot (the
reserved names `.` and `..` cannot occur; all-dot names are excluded so that
`os.path.splitext` inverts the archive naming). -/
def goodDirName (n : String) : Bool :=
  n.data.any (fun c => c ≠ ('.' : Char))

mutual
/-- Well-formedness of a tree as a filesystem: within each directory the
file names are distinct, the subdirectory names are distinct, no name is
both a file and a subdirectory, and every subdirectory name contains a
non-dot character. -/
def wfT : FTree → Bool
  | .node fs ds =>
    nodupKeys (fs.map Prod.fst) && nodupKeys (ds.map Prod.fst) &&
    disjointKeys (fs.map Prod.fst) (ds.map Prod.fst) &&
    (ds.map Prod.fst).all goodDirName && wfL ds

/-- Well-formedness over a subdirectory list. -/
def wfL : List (String × FTree) → Bool
  | [] => true
  | (_, ct) :: rest => wfT ct && wfL rest
end

mutual
/-- Whether no file name anywhere in the tree ends in the archive
extension. -/
def no7zT : FTree → Bool
  | .node fs ds => (fs.map Prod.fst).all (fun n => !ends7z n) && no7zL ds

/-- No-archive-suffix condition over a subdirectory list. -/
def no7zL : List (String × FTree) → Bool
  | [] => true
  | (_, ct) :: rest => no7zT ct && no7zL rest
end

/-- Archives a successful encrypt leaves in a directory for its children. -/
def archsOf (pw : String) (ds : List (String × FTree)) : List (String × Content) :=
  ds.filterMap (childArchive pw)

/-- Pending writes a successful decrypt loop accumulates over the archives of
an encrypted directory: each child that had files receives its files back. -/
def pendOf (ds : List (String × FTree)) : List (String × List (String × Content)) :=
  ds.filterMap (fun pr => if pr.2.files.isEmpty then none else some (pr.1, pr.2.files))

/-- Concrete tree used by several witness runs: a file-less root with one
child directory holding one file. -/
def tC1 : FTree :=
  FTree.node [] [(("d"), FTree.node [(("a"), Content.bytes [1, 2])] [])]

/-- Archiver whose compress invocation always exits non-zero. -/
def failC : Arch := ⟨fun _ => false, fun _ => true, fun _ _ => true⟩

/-- Archiver that exits zero from compress without materialising a file at
the archive path. -/
def noCreateArch : Arch := ⟨fun _ => true, fun _ => false, fun _ _ => true⟩

/-- Archiver whose extract invocation fails exactly on the archive named
`a.7z`. -/
def failExtractA : Arch := ⟨fun _ => true, fun _ => true, fun _ a => a != ("a.7z")⟩

/-- Directory holding two archives, used to exercise the decrypt loop. -/
def tC5 : FTree :=
  FTree.node [(("a.7z"), Content.archive ("pw") [(("x"), Content.bytes [1])]),
              (("b.7z"), Content.archive ("pw") [(("y"), Content.bytes [2])])] []

/-- Directory holding a single file named exactly `.7z`. -/
def tC6 : FTree := FTree.node [((".7z"), Content.bytes [1])] []

/-- Directory holding a single archive. -/
def tC4 : FTree :=
  FTree.node [(("a.7z"), Content.archive ("pw") [(("x"), Content.bytes [1])])] []

/-- Parent files holding a stale archive at the archive path of a directory
named `d`. -/
def pfC3 : List (String × Content) :=
  [(("d.7z"), Content.archive ("old") [(("x"), Content.bytes [9])])]

/-
Helper lemmas: association lists keyed by names.
-/

theorem lookupA_none_iff {α : Type} (xs : List (String × α)) (k : String) :
    lookupA xs k = none ↔ k ∉ xs.map Prod.fst := by
  induction xs with
  | nil => simp [lookupA]
  | cons hd tl ih =>
    obtain ⟨k', v⟩ := hd
    by_cases h : k' = k
    · subst h
      simp [lookupA]
    · simp [lookupA, h, ih, Ne.symm h]

theorem lookupA_append {α : Type} (xs ys : List (String × α)) (k : String) :
    lookupA (xs ++ ys) k =
      match lookupA xs k with
      | some v => some v
      | none => lookupA ys k := by
  induction xs with
  | nil => simp [lookupA]
  | cons hd tl ih =>
    obtain ⟨k', v⟩ := hd
    by_cases h : k' = k
    · simp [lookupA, h]
    · simp [lookupA, h, ih]

theorem upsertA_fresh {α : Type} (xs : List (String × α)) (k : String) (v : α)
    (h : lookupA xs k = none) : upsertA xs k v = xs ++ [(k, v)] := by
  induction xs with
  | nil => simp [upsertA]
  | cons hd tl ih =>
    obtain ⟨k', w⟩ := hd
    by_cases hk : k' = k
    · simp [lookupA, hk] at h
    · simp [lookupA, hk] at h
      simp [upsertA, hk, ih h]

theorem lookupA_upsertA_ne {α : Type} (xs : List (String × α)) (k k' : String) (v : α)
    (h : k' ≠ k) : lookupA (upsertA xs k v) k' = lookupA xs k' := by
  induction xs with
  | nil => simp [upsertA, lookupA, Ne.symm h]
  | cons hd tl ih =>
    obtain ⟨k0, w⟩ := hd
    by_cases hk : k0 = k
    · subst hk
      simp [upsertA, lookupA, Ne.symm h]
    · simp [upsertA, hk, lookupA]
      by_cases hk' : k0 = k'
      · simp [hk']
      · simp [hk', ih]

theorem removeKeys_self {α : Type} (fs : List (String × α)) :
    removeKeys fs (fs.map Prod.fst) = [] := by
  induction fs with
  | nil => rfl
  | cons hd tl ih =>
    obtain ⟨k, v⟩ := hd
    show removeKeys (removeA ((k, v) :: tl) k) (tl.map Prod.fst) = []
    simp [removeA]
    exact ih

theorem upsertList_fresh {α : Type} (es base : List (String × α))
    (hfresh : ∀ k ∈ es.map Prod.fst, lookupA base k = none)
    (hnd : nodupKeys (es.map Prod.fst) = true) :
    upsertList base es = base ++ es := by
  induction es generalizing base with
  | nil => simp [upsertList]
  | cons hd tl ih =>
    obtain ⟨k, v⟩ := hd
    have hk : lookupA base k = none := hfresh k (by simp)
    have h1 : upsertA base k v = base ++ [(k, v)] := upsertA_fresh base k v hk
    show upsertList (upsertA base k v) tl = base ++ (k, v) :: tl
    simp [nodupKeys, Bool.and_eq_true] at hnd
    have h2 : ∀ k' ∈ tl.map Prod.fst, lookupA (base ++ [(k, v)]) k' = none := by
      intro k' hk'
      rw [lookupA_append]
      have hne : k ≠ k' := by
        intro he
        subst he
        have h3 : ¬ k ∈ tl.map Prod.fst := by
          simpa using hnd.1
        exact h3 hk'
      simp [hfresh k' (by simp [hk']), lookupA, hne]
    rw [h1, ih (base ++ [(k, v)]) h2 hnd.2]
    simp

theorem lookupA_of_not_mem {α : Type} (xs : List (String × α)) (k : String)
    (h : k ∉ xs.map Prod.fst) : lookupA xs k = none :=
  (lookupA_none_iff xs k).2 h

/-
Helper lemmas: the archive extension and os.path.splitext.
-/

theorem string_ext_data {s t : String} (h : s.data = t.data) : s = t :=
  String.ext h

theorem ends7z_append (n : String) : ends7z (n ++ sevenZ) = true := by
  have : sevenZChars <:+ (n ++ sevenZ).data := by
    show sevenZChars <:+ n.data ++ sevenZ.data
    have hd : sevenZ.data = sevenZChars := rfl
    rw [hd]
    exact List.suffix_append n.data sevenZChars
  simpa [ends7z] using this

theorem ends7z_exists (s : String) (h : ends7z s = true) :
    ∃ pre : List Char, s.data = pre ++ sevenZChars := by
  have hs : sevenZChars <:+ s.data := by
    simpa [ends7z] using h
  obtain ⟨pre, hp⟩ := hs
  exact ⟨pre, hp.symm⟩

theorem append_sevenZ_inj (a b : String) (h : a ++ sevenZ = b ++ sevenZ) : a = b := by
  apply string_ext_data
  have hd : (a ++ sevenZ).data = (b ++ sevenZ).data := by rw [h]
  simp only [String.data_append] at hd
  exact List.append_cancel_right hd

theorem splitLastDot_of_no_dot (q : List Char) (h : ('.' : Char) ∉ q) :
    splitLastDot q = none := by
  induction q with
  | nil => rfl
  | cons c rest ih =>
    simp at h
    have hc : ¬c = ('.' : Char) := fun hc => h.1 hc.symm
    simp [splitLastDot, ih h.2, hc]

theorem splitLastDot_append (pre q : List Char) (h : ('.' : Char) ∉ q) :
    splitLastDot (pre ++ ('.' : Char) :: q) = some (pre, q) := by
  induction pre with
  | nil => simp [splitLastDot, splitLastDot_of_no_dot q h]
  | cons c rest ih => simp [splitLastDot, ih]

theorem no_dot_7z : ('.' : Char) ∉ [('7' : Char), ('z' : Char)] := by decide

theorem pySplitextRoot_append (n : String) (hgood : goodDirName n = true) :
    pySplitextRoot (n ++ sevenZ) = n := by
  have hd : (n ++ sevenZ).data = n.data ++ ('.' : Char) :: [('7' : Char), ('z' : Char)] := by
    simp [String.data_append]
    rfl
  have hsplit := splitLastDot_append n.data [('7' : Char), ('z' : Char)] no_dot_7z
  have hany : ∃ c ∈ n.data, ¬c = ('.' : Char) := by
    have := hgood
    simp [goodDirName, List.any_eq_true] at this
    exact this
  apply string_ext_data
  simp [pySplitextRoot, pySplitextRootL, hd, hsplit]
  exact hany

theorem strip7z_append (n : String) : strip7z (n ++ sevenZ) = n := by
  apply string_ext_data
  have hd : (n ++ sevenZ).data = n.data ++ sevenZChars := by
    simp [String.data_append]
    rfl
  simp [strip7z, hd, sevenZChars]

theorem pySplitextRoot_eq_strip7z (a : String) (h7 : ends7z a = true)
    (hgood : goodDirName (strip7z a) = true) :
    pySplitextRoot a = strip7z a := by
  obtain ⟨pre, hp⟩ := ends7z_exists a h7
  have ha : a = String.mk pre ++ sevenZ := by
    apply string_ext_data
    simp [String.data_append, hp]
    rfl
  rw [ha] at hgood ⊢
  rw [strip7z_append] at hgood ⊢
  exact pySplitextRoot_append (String.mk pre) hgood

@[simp] theorem FTree.files_node (fs : List (String × Content))
    (ds : List (String × FTree)) : (FTree.node fs ds).files = fs := rfl

@[simp] theorem FTree.dirs_node (fs : List (String × Content))
    (ds : List (String × FTree)) : (FTree.node fs ds).dirs = ds := rfl

/-
Helper lemmas: traces.
-/

theorem visitPaths_append (x y : List Ev) :
    visitPaths (x ++ y) = visitPaths x ++ visitPaths y := by
  simp [visitPaths]

theorem extractNames_append (x y : List Ev) :
    extractNames (x ++ y) = extractNames x ++ extractNames y := by
  simp [extractNames]

theorem attemptedAt_append (P : List String) (x y : List Ev) :
    attemptedAt P (x ++ y) = attemptedAt P x ++ attemptedAt P y := by
  simp [attemptedAt]

theorem visitPaths_of_no_visit (tr : List Ev) (h : ∀ e ∈ tr, isVisit e = false) :
    visitPaths tr = [] := by
  apply List.filterMap_eq_nil_iff.2
  intro e he
  have hv := h e he
  cases e <;> simp [isVisit] at hv ⊢

theorem mem_visitPaths (tr : List Ev) (p : List String) :
    p ∈ visitPaths tr ↔ Ev.visit p ∈ tr := by
  simp only [visitPaths, List.mem_filterMap]
  constructor
  · rintro ⟨e, he, hm⟩
    cases e <;> simp at hm
    subst hm
    exact he
  · intro h
    exact ⟨Ev.visit p, h, rfl⟩

theorem attemptedAt_of_other_paths (P : List String) (tr : List Ev)
    (h : ∀ e ∈ tr, pathOf e ≠ P) : attemptedAt P tr = [] := by
  apply List.filterMap_eq_nil_iff.2
  intro e he
  have hp := h e he
  cases e <;> simp [pathOf] at hp ⊢
  simp [hp]

/-
Helper lemmas: the per-archive step of the decrypt loop.
-/

theorem decExtractStep_cases (A : Arch) (pw : String) (P : List String)
    (ds : List (String × FTree)) (a dest : String) (st : LoopSt)
    (hdest : st.dnames.contains dest = true) :
    ((decExtractStep A pw P ds a dest st).tr = st.tr ++ [Ev.extract P a dest true] ∧
      (decExtractStep A pw P ds a dest st).err = some Err.archiver) ∨
    ((decExtractStep A pw P ds a dest st).tr =
        st.tr ++ [Ev.extract P a dest true, Ev.removeFile P a] ∧
      (decExtractStep A pw P ds a dest st).err = st.err) := by
  have hd2 : dest ∈ st.dnames := by simpa using hdest
  unfold decExtractStep
  cases hlk : lookupA st.fs a with
  | none => left; simp [hlk, hd2]
  | some c =>
    cases c with
    | bytes d => left; simp [hlk, hd2]
    | archive pw2 es =>
      simp only [hlk]
      split
      · split
        · left; simp [hd2]
        · right; simp [hd2]
      · left; simp [hd2]

theorem decLoopStep_cases (A : Arch) (pw : String) (P : List String)
    (ds : List (String × FTree)) (a : String) (st : LoopSt) :
    ((decLoopStep A pw P ds a st).tr = st.tr ++ [Ev.mkdirAt P a (pySplitextRoot a)] ∧
      (decLoopStep A pw P ds a st).err = some Err.fsOp) ∨
    ((decLoopStep A pw P ds a st).tr =
        st.tr ++ [Ev.mkdirAt P a (pySplitextRoot a),
                  Ev.extract P a (pySplitextRoot a) true] ∧
      (decLoopStep A pw P ds a st).err = some Err.archiver) ∨
    ((decLoopStep A pw P ds a st).tr =
        st.tr ++ [Ev.mkdirAt P a (pySplitextRoot a),
                  Ev.extract P a (pySplitextRoot a) true,
                  Ev.removeFile P a] ∧
      (decLoopStep A pw P ds a st).err = st.err) := by
  simp only [decLoopStep]
  split
  next h =>
    rcases decExtractStep_cases A pw P ds a (pySplitextRoot a)
      { st with tr := st.tr ++ [Ev.mkdirAt P a (pySplitextRoot a)] } (by simpa using h)
      with ⟨h1, h2⟩ | ⟨h1, h2⟩
    · right; left
      constructor
      · rw [h1]; simp
      · exact h2
    · right; right
      constructor
      · rw [h1]; simp
      · exact h2
  next h =>
    split
    next h' =>
      left
      exact ⟨by simp, by simp⟩
    next h' =>
      rcases decExtractStep_cases A pw P ds a (pySplitextRoot a)
        { st with
            dnames := st.dnames ++ [pySplitextRoot a],
            newd := st.newd ++ [pySplitextRoot a],
            tr := st.tr ++ [Ev.mkdirAt P a (pySplitextRoot a)] }
        (by simp)
        with ⟨h1, h2⟩ | ⟨h1, h2⟩
      · right; left
        constructor
        · rw [h1]; simp
        · exact h2
      · right; right
        constructor
        · rw [h1]; simp
        · exact h2

theorem step_events_props (P : List String) (a : String) :
    ∀ e ∈ [Ev.mkdirAt P a (pySplitextRoot a),
           Ev.extract P a (pySplitextRoot a) true, Ev.removeFile P a],
      pathOf e = P ∧ isVisit e = false ∧
        (∀ a' d', e = Ev.mkdirAt P a' d' → d' = pySplitextRoot a') ∧
        (∀ a' d' b, e = Ev.extract P a' d' b → b = true) := by
  intro e he
  simp at he
  rcases he with rfl | rfl | rfl
  · refine ⟨rfl, rfl, ?_, ?_⟩
    · intro a' d' h
      cases h
      rfl
    · intro a' d' b h
      cases h
  · refine ⟨rfl, rfl, ?_, ?_⟩
    · intro a' d' h
      cases h
    · intro a' d' b h
      cases h
      rfl
  · refine ⟨rfl, rfl, ?_, ?_⟩
    · intro a' d' h
      cases h
    · intro a' d' b h
      cases h

theorem decLoop_tr (A : Arch) (pw : String) (P : List String)
    (ds : List (String × FTree)) : ∀ (l : List String) (st : LoopSt),
    ∃ add : List Ev, (decLoop A pw P ds l st).tr = st.tr ++ add ∧
      ∀ e ∈ add, pathOf e = P ∧ isVisit e = false ∧
        (∀ a' d', e = Ev.mkdirAt P a' d' → d' = pySplitextRoot a') ∧
        (∀ a' d' b, e = Ev.extract P a' d' b → b = true)
  | [], st => ⟨[], by simp [decLoop], by simp⟩
  | a :: rest, st => by
    have hprops := step_events_props P a
    simp only [decLoop]
    cases herr : (decLoopStep A pw P ds a st).err with
    | some e0 =>
      simp only [herr]
      rcases decLoopStep_cases A pw P ds a st with ⟨h1, _⟩ | ⟨h1, _⟩ | ⟨h1, _⟩
      all_goals refine ⟨_, h1, ?_⟩
      all_goals intro e' he'
      all_goals apply hprops
      all_goals simp at he' ⊢
      all_goals tauto
    | none =>
      simp only [herr]
      obtain ⟨add', hi1, hi2⟩ := decLoop_tr A pw P ds rest (decLoopStep A pw P ds a st)
      rcases decLoopStep_cases A pw P ds a st with ⟨h1, _⟩ | ⟨h1, _⟩ | ⟨h1, _⟩
      all_goals rw [h1] at hi1
      all_goals refine ⟨_, by rw [hi1, List.append_assoc], ?_⟩
      all_goals intro e' he'
      all_goals rw [List.mem_append] at he'
      all_goals rcases he' with he' | he'
      · apply hprops
        simp at he' ⊢
        tauto
      · exact hi2 e' he'
      · apply hprops
        simp at he' ⊢
        tauto
      · exact hi2 e' he'
      · apply hprops
        simp at he' ⊢
        tauto
      · exact hi2 e' he'

theorem decLoop_err_none_tr (A : Arch) (pw : String) (P : List String)
    (ds : List (String × FTree)) : ∀ (l : List String) (st : LoopSt),
    st.err = none → (decLoop A pw P ds l st).err = none →
    extractNames (decLoop A pw P ds l st).tr = extractNames st.tr ++ l ∧
    attemptedAt P (decLoop A pw P ds l st).tr = attemptedAt P st.tr ++ l
  | [], st => by
    intro h0 h
    simp [decLoop]
  | a :: rest, st => by
    intro h0 h
    simp only [decLoop] at h ⊢
    cases herr : (decLoopStep A pw P ds a st).err with
    | some e0 =>
      simp only [herr] at h
      simp [herr] at h
    | none =>
      simp only [herr] at h ⊢
      rcases decLoopStep_cases A pw P ds a st with ⟨h1, h2⟩ | ⟨h1, h2⟩ | ⟨h1, h2⟩
      · rw [herr] at h2
        cases h2
      · rw [herr] at h2
        cases h2
      · have hi := decLoop_err_none_tr A pw P ds rest (decLoopStep A pw P ds a st) herr h
        rw [hi.1, hi.2, h1]
        constructor
        · rw [extractNames_append]
          simp [extractNames]
        · rw [attemptedAt_append]
          simp [attemptedAt]
  termination_by l => l.length

theorem decLoop_extract_take (A : Arch) (pw : String) (P : List String)
    (ds : List (String × FTree)) : ∀ (l : List String) (st : LoopSt),
    st.err = none →
    ∃ k, k ≤ l.length ∧
      extractNames (decLoop A pw P ds l st).tr = extractNames st.tr ++ l.take k ∧
      ((decLoop A pw P ds l st).err = none → k = l.length)
  | [], st => by
    intro h0
    exact ⟨0, by simp, by simp [decLoop], by simp⟩
  | a :: rest, st => by
    intro h0
    simp only [decLoop]
    cases herr : (decLoopStep A pw P ds a st).err with
    | some e0 =>
      simp only [herr]
      rcases decLoopStep_cases A pw P ds a st with ⟨h1, h2⟩ | ⟨h1, h2⟩ | ⟨h1, h2⟩
      · refine ⟨0, by simp, ?_, ?_⟩
        · rw [h1, extractNames_append]
          simp [extractNames]
        · intro hc
          simp at hc
      · refine ⟨1, by simp, ?_, ?_⟩
        · rw [h1, extractNames_append]
          simp [extractNames]
        · intro hc
          simp at hc
      · refine ⟨1, by simp, ?_, ?_⟩
        · rw [h1, extractNames_append]
          simp [extractNames]
        · intro hc
          simp at hc
    | none =>
      simp only [herr]
      obtain ⟨k, hk, he, himp⟩ :=
        decLoop_extract_take A pw P ds rest (decLoopStep A pw P ds a st) herr
      rcases decLoopStep_cases A pw P ds a st with ⟨h1, h2⟩ | ⟨h1, h2⟩ | ⟨h1, h2⟩
      · rw [herr] at h2
        cases h2
      · rw [herr] at h2
        cases h2
      · refine ⟨k + 1, by simpa using hk, ?_, ?_⟩
        · rw [he, h1, extractNames_append]
          simp [extractNames]
        · intro hc
          simp [himp hc]
  termination_by l => l.length

theorem childArchive_eq (pw : String) (cn : String) (ct : FTree) :
    childArchive pw (cn, ct) =
      if ct.files.isEmpty then none
      else some (cn ++ sevenZ, Content.archive pw ct.files) := by
  cases ct
  rfl

theorem encTL_keys (pw : String) (ds : List (String × FTree)) :
    (encTL pw ds).map Prod.fst = ds.map Prod.fst := by
  induction ds with
  | nil => rfl
  | cons pr rest ih =>
    obtain ⟨cn, ct⟩ := pr
    simp [encTL, ih]

theorem dirNamesOf_encT (pw : String) (t : FTree) :
    dirNamesOf (encT pw t) = dirNamesOf t := by
  cases t
  simp [encT, dirNamesOf, FTree.dirs, encTL_keys]

theorem archsOf_cons (pw : String) (cn : String) (ct : FTree)
    (rest : List (String × FTree)) :
    archsOf pw ((cn, ct) :: rest) =
      (if ct.files.isEmpty then []
       else [(cn ++ sevenZ, Content.archive pw ct.files)]) ++ archsOf pw rest := by
  by_cases hfe : ct.files.isEmpty <;>
    simp [archsOf, List.filterMap_cons, childArchive_eq, hfe]

theorem pendOf_cons (cn : String) (ct : FTree) (rest : List (String × FTree)) :
    pendOf ((cn, ct) :: rest) =
      (if ct.files.isEmpty then [] else [(cn, ct.files)]) ++ pendOf rest := by
  by_cases hfe : ct.files.isEmpty <;>
    simp [pendOf, List.filterMap_cons, hfe]

theorem archsOf_keys_7z (pw : String) :
    ∀ ds, ∀ k ∈ (archsOf pw ds).map Prod.fst, ends7z k = true := by
  intro ds
  induction ds with
  | nil => simp [archsOf]
  | cons pr rest ih =>
    obtain ⟨cn, ct⟩ := pr
    rw [archsOf_cons]
    intro k hk
    rw [List.map_append, List.mem_append] at hk
    rcases hk with hk | hk
    · by_cases hfe : ct.files.isEmpty
      · simp [hfe] at hk
      · simp [hfe] at hk
        rw [hk]
        exact ends7z_append cn
    · exact ih k hk

theorem any_contains_false_of_disjoint (ys : List String)
    (es : List (String × Content))
    (hd : disjointKeys (es.map Prod.fst) ys = true) :
    (es.any fun e => ys.contains e.1) = false := by
  rw [List.any_eq_false]
  intro e he
  simp [disjointKeys, List.all_eq_true] at hd
  have h2 := hd e.1 e.2 (by simpa using he)
  simp [h2]

theorem decLoop_enc (pw : String) (P : List String) (dsE : List (String × FTree)) :
    ∀ (ds : List (String × FTree)) (fsTail : List (String × Content))
      (dn : List String) (pend0 : List (String × List (String × Content)))
      (newd0 : List String) (tr0 : List Ev),
    (∀ pr ∈ ds, dn.contains pr.1 = true) →
    (∀ pr ∈ ds, lookupA dsE pr.1 = some (encT pw pr.2)) →
    (∀ pr ∈ ds, wfT pr.2 = true) →
    (∀ pr ∈ ds, lookupA pend0 pr.1 = none) →
    (∀ pr ∈ ds, goodDirName pr.1 = true) →
    nodupKeys (ds.map Prod.fst) = true →
    ∃ tr1 : List Ev,
      decLoop idealArch pw P dsE ((archsOf pw ds).map Prod.fst)
        ⟨archsOf pw ds ++ fsTail, dn, pend0, newd0, tr0, none⟩ =
      ⟨fsTail, dn, pend0 ++ pendOf ds, newd0, tr1, none⟩
  | [], fsTail, dn, pend0, newd0, tr0 => by
    intro _ _ _ _ _ _
    exact ⟨tr0, by simp [decLoop, archsOf, pendOf]⟩
  | (cn, ct) :: rest, fsTail, dn, pend0, newd0, tr0 => by
    intro h1 h2 h3 h4 h5 h6
    simp only [List.map_cons, nodupKeys, Bool.and_eq_true] at h6
    obtain ⟨h6a, h6b⟩ := h6
    have h6a' : ¬ cn ∈ rest.map Prod.fst := by simpa using h6a
    by_cases hfe : ct.files.isEmpty
    · have har : archsOf pw ((cn, ct) :: rest) = archsOf pw rest := by
        rw [archsOf_cons]
        simp [hfe]
      have hpe : pendOf ((cn, ct) :: rest) = pendOf rest := by
        rw [pendOf_cons]
        simp [hfe]
      rw [har, hpe]
      exact decLoop_enc pw P dsE rest fsTail dn pend0 newd0 tr0
        (fun pr hpr => h1 pr (by simp [hpr]))
        (fun pr hpr => h2 pr (by simp [hpr]))
        (fun pr hpr => h3 pr (by simp [hpr]))
        (fun pr hpr => h4 pr (by simp [hpr]))
        (fun pr hpr => h5 pr (by simp [hpr]))
        h6b
    · have hgood : goodDirName cn = true := h5 (cn, ct) (by simp)
      have hdn : cn ∈ dn := by
        have := h1 (cn, ct) (by simp)
        simpa using this
      have hlkE : lookupA dsE cn = some (encT pw ct) := h2 (cn, ct) (by simp)
      have hwf : wfT ct = true := h3 (cn, ct) (by simp)
      have hpend : lookupA pend0 cn = none := h4 (cn, ct) (by simp)
      have hroot : pySplitextRoot (cn ++ sevenZ) = cn := pySplitextRoot_append cn hgood
      have hdisj : disjointKeys (ct.files.map Prod.fst) (dirNamesOf ct) = true := by
        obtain ⟨cfs, cds⟩ := ct
        simp only [wfT, Bool.and_eq_true] at hwf
        simp only [FTree.files, dirNamesOf, FTree.dirs]
        tauto
      have hconf : ∀ (x : String) (c : Content), (x, c) ∈ ct.files → x ∉ dirNamesOf ct := by
        simp [disjointKeys, List.all_eq_true] at hdisj
        exact hdisj
      have har : archsOf pw ((cn, ct) :: rest) =
          (cn ++ sevenZ, Content.archive pw ct.files) :: archsOf pw rest := by
        rw [archsOf_cons]
        simp [hfe]
      have hpe : pendOf ((cn, ct) :: rest) = (cn, ct.files) :: pendOf rest := by
        rw [pendOf_cons]
        simp [hfe]
      rw [har, hpe]
      have hstep : decLoopStep idealArch pw P dsE (cn ++ sevenZ)
          ⟨(cn ++ sevenZ, Content.archive pw ct.files) :: (archsOf pw rest ++ fsTail),
            dn, pend0, newd0, tr0, none⟩ =
          ⟨archsOf pw rest ++ fsTail, dn, pend0 ++ [(cn, ct.files)], newd0,
            tr0 ++ [Ev.mkdirAt P (cn ++ sevenZ) cn, Ev.extract P (cn ++ sevenZ) cn true,
                    Ev.removeFile P (cn ++ sevenZ)], none⟩ := by
        simp [decLoopStep, decExtractStep, hroot, hdn, idealArch, lookupA, hlkE,
          dirNamesOf_encT, addPend, hpend, removeA]
        exact hconf
      have hrec := decLoop_enc pw P dsE rest fsTail dn (pend0 ++ [(cn, ct.files)]) newd0
        (tr0 ++ [Ev.mkdirAt P (cn ++ sevenZ) cn, Ev.extract P (cn ++ sevenZ) cn true,
                 Ev.removeFile P (cn ++ sevenZ)])
        (fun pr hpr => h1 pr (by simp [hpr]))
        (fun pr hpr => h2 pr (by simp [hpr]))
        (fun pr hpr => h3 pr (by simp [hpr]))
        (fun pr hpr => by
          rw [lookupA_append, h4 pr (by simp [hpr])]
          have hne : cn ≠ pr.1 := by
            intro he
            apply h6a'
            rw [he]
            exact List.mem_map_of_mem Prod.fst hpr
          simp [lookupA, hne])
        (fun pr hpr => h5 pr (by simp [hpr]))
        h6b
      obtain ⟨tr1, htr⟩ := hrec
      refine ⟨tr1, ?_⟩
      show decLoop idealArch pw P dsE
          ((cn ++ sevenZ) :: (archsOf pw rest).map Prod.fst)
          ⟨(cn ++ sevenZ, Content.archive pw ct.files) :: (archsOf pw rest ++ fsTail),
            dn, pend0, newd0, tr0, none⟩ =
        ⟨fsTail, dn, pend0 ++ (cn, ct.files) :: pendOf rest, newd0, tr1, none⟩
      rw [decLoop, hstep]
      show decLoop idealArch pw P dsE ((archsOf pw rest).map Prod.fst)
          ⟨archsOf pw rest ++ fsTail, dn, pend0 ++ [(cn, ct.files)], newd0,
            tr0 ++ [Ev.mkdirAt P (cn ++ sevenZ) cn, Ev.extract P (cn ++ sevenZ) cn true,
                    Ev.removeFile P (cn ++ sevenZ)], none⟩ =
        ⟨fsTail, dn, pend0 ++ (cn, ct.files) :: pendOf rest, newd0, tr1, none⟩
      rw [htr]
      simp

theorem compressResult_ideal_fresh (pw : String) (P : List String)
    (pf : List (String × Content)) (aname : String) (fs : List (String × Content))
    (hfresh : lookupA pf aname = none) :
    compressResult idealArch pw P pf aname fs =
      some (pf ++ [(aname, Content.archive pw fs)]) := by
  simp [compressResult, hfresh, idealArch, upsertA_fresh pf aname _ hfresh]

theorem wfL_mem : ∀ (ds : List (String × FTree)), wfL ds = true →
    ∀ pr ∈ ds, wfT pr.2 = true := by
  intro ds h pr hpr
  induction ds with
  | nil => cases hpr
  | cons hd tl ih =>
    simp only [wfL, Bool.and_eq_true] at h
    rcases List.mem_cons.1 hpr with he | he
    · subst he
      exact h.1
    · exact ih h.2 he

mutual
theorem encD_closed : ∀ (t : FTree) (pw : String) (pp : List String) (name : String)
    (pf : List (String × Content)) (cwd : List String),
    wfT t = true → lookupA pf (name ++ sevenZ) = none →
    (encD idealArch pw pp name pf cwd t).pf =
        pf ++ (if t.files.isEmpty then []
               else [(name ++ sevenZ, Content.archive pw t.files)]) ∧
      (encD idealArch pw pp name pf cwd t).t = encT pw t ∧
      (encD idealArch pw pp name pf cwd t).err = none
  | FTree.node fs ds, pw, pp, name, pf, cwd => by
    intro hwf hfresh
    have hnd : nodupKeys (ds.map Prod.fst) = true := by
      simp only [wfT, Bool.and_eq_true] at hwf
      tauto
    have hwl : wfL ds = true := by
      simp only [wfT, Bool.and_eq_true] at hwf
      tauto
    by_cases hfe : fs.isEmpty
    · have hfs : fs = [] := by simpa using hfe
      subst hfs
      have hc := encChildren_closed ds pw (pp ++ [name]) [] cwd hwl hnd
        (fun cn _ => rfl)
      refine ⟨?_, ?_, ?_⟩
      · simp [encD]
      · simp only [encD]
        simp only [List.isEmpty_nil, if_true]
        rw [show (FTree.node (encChildren idealArch pw (pp ++ [name]) [] cwd ds).pfD
            (encChildren idealArch pw (pp ++ [name]) [] cwd ds).ds : FTree) =
            FTree.node (encChildren idealArch pw (pp ++ [name]) [] cwd ds).pfD
            (encChildren idealArch pw (pp ++ [name]) [] cwd ds).ds from rfl]
        rw [hc.1, hc.2.1]
        simp [encT, archsOf]
      · simp only [encD]
        simp only [List.isEmpty_nil, if_true]
        exact hc.2.2
    · have hne : ¬ fs.isEmpty = true := hfe
      have hcomp := compressResult_ideal_fresh pw (pp ++ [name]) pf (name ++ sevenZ) fs hfresh
      have hdoomed : (lookupA (pf ++ [(name ++ sevenZ, Content.archive pw fs)])
          (name ++ sevenZ)).isSome = true := by
        rw [lookupA_append, hfresh]
        simp [lookupA]
      have hrk : removeKeys fs (fs.map Prod.fst) = ([] : List (String × Content)) :=
        removeKeys_self fs
      have hc := encChildren_closed ds pw (pp ++ [name]) [] cwd hwl hnd
        (fun cn _ => rfl)
      refine ⟨?_, ?_, ?_⟩
      · simp [encD, hne, hcomp, hfresh, hdoomed, hrk, hc.1]
      · simp [encD, hne, hcomp, hfresh, hdoomed, hrk, hc.1, hc.2.1, encT, archsOf]
      · simp [encD, hne, hcomp, hfresh, hdoomed, hrk, hc.2.2]

theorem encChildren_closed : ∀ (ds : List (String × FTree)) (pw : String)
    (P : List String) (pfD : List (String × Content)) (cwd : List String),
    wfL ds = true → nodupKeys (ds.map Prod.fst) = true →
    (∀ cn ∈ ds.map Prod.fst, lookupA pfD (cn ++ sevenZ) = none) →
    (encChildren idealArch pw P pfD cwd ds).pfD = pfD ++ archsOf pw ds ∧
      (encChildren idealArch pw P pfD cwd ds).ds = encTL pw ds ∧
      (encChildren idealArch pw P pfD cwd ds).err = none
  | [], pw, P, pfD, cwd => by
    intro _ _ _
    refine ⟨?_, ?_, ?_⟩ <;> simp [encChildren, archsOf, encTL]
  | (cn, ct) :: rest, pw, P, pfD, cwd => by
    intro hwl hnd hfresh
    simp only [wfL, Bool.and_eq_true] at hwl
    simp only [List.map_cons, nodupKeys, Bool.and_eq_true] at hnd
    have hnd' : ¬ cn ∈ rest.map Prod.fst := by simpa using hnd.1
    have hr := encD_closed ct pw P cn pfD cwd hwl.1 (hfresh cn (by simp))
    have hrest := encChildren_closed rest pw P
      (pfD ++ (if ct.files.isEmpty then []
               else [(cn ++ sevenZ, Content.archive pw ct.files)])) cwd
      hwl.2 hnd.2
      (by
        intro cn' hcn'
        rw [lookupA_append, hfresh cn' (by simp [hcn'])]
        by_cases hfe : ct.files.isEmpty
        · simp [hfe, lookupA]
        · have hne2 : ¬ (cn ++ sevenZ) = (cn' ++ sevenZ) := by
            intro he
            exact hnd' (by rw [append_sevenZ_inj cn cn' he]; exact hcn')
          simp [hfe, lookupA, hne2])
    have herr := hr.2.2
    refine ⟨?_, ?_, ?_⟩
    · simp only [encChildren, herr]
      rw [hr.1, hrest.1, archsOf_cons]
      simp
    · simp only [encChildren, herr]
      rw [hr.1, hr.2.1, hrest.2.1]
      simp [encTL]
    · simp only [encChildren, herr]
      rw [hr.1]
      exact hrest.2.2
end

theorem no7zL_mem : ∀ (ds : List (String × FTree)), no7zL ds = true →
    ∀ pr ∈ ds, no7zT pr.2 = true := by
  intro ds h pr hpr
  induction ds with
  | nil => cases hpr
  | cons hd tl ih =>
    simp only [no7zL, Bool.and_eq_true] at h
    rcases List.mem_cons.1 hpr with he | he
    · subst he
      exact h.1
    · exact ih h.2 he

theorem lookupA_encTL_of_mem (pw : String) :
    ∀ (ds : List (String × FTree)), nodupKeys (ds.map Prod.fst) = true →
    ∀ pr ∈ ds, lookupA (encTL pw ds) pr.1 = some (encT pw pr.2) := by
  intro ds
  induction ds with
  | nil =>
    intro _ pr hpr
    cases hpr
  | cons hd tl ih =>
    intro hnd pr hpr
    obtain ⟨cn, ct⟩ := hd
    simp only [List.map_cons, nodupKeys, Bool.and_eq_true] at hnd
    have hnd' : ¬ cn ∈ tl.map Prod.fst := by simpa using hnd.1
    rcases List.mem_cons.1 hpr with he | he
    · subst he
      simp [encTL, lookupA]
    · have hne : ¬ cn = pr.1 := by
        intro hce
        exact hnd' (by rw [hce]; exact List.mem_map_of_mem Prod.fst he)
      simp only [encTL, lookupA, if_neg hne]
      exact ih hnd.2 pr he

theorem pendOf_keys_sub : ∀ (ds : List (String × FTree)),
    ∀ k ∈ (pendOf ds).map Prod.fst, k ∈ ds.map Prod.fst := by
  intro ds
  induction ds with
  | nil => simp [pendOf]
  | cons hd tl ih =>
    obtain ⟨cn, ct⟩ := hd
    rw [pendOf_cons]
    intro k hk
    rw [List.map_append, List.mem_append] at hk
    rcases hk with hk | hk
    · by_cases hfe : ct.files.isEmpty
      · simp [hfe] at hk
      · simp [hfe] at hk
        simp [hk]
    · simp [ih k hk]

theorem getPend_pendOf : ∀ (ds : List (String × FTree)),
    nodupKeys (ds.map Prod.fst) = true →
    ∀ pr ∈ ds, getPend (pendOf ds) pr.1 = pr.2.files := by
  intro ds
  induction ds with
  | nil =>
    intro _ pr hpr
    cases hpr
  | cons hd tl ih =>
    intro hnd pr hpr
    obtain ⟨cn, ct⟩ := hd
    simp only [List.map_cons, nodupKeys, Bool.and_eq_true] at hnd
    have hnd' : ¬ cn ∈ tl.map Prod.fst := by simpa using hnd.1
    rw [pendOf_cons]
    rcases List.mem_cons.1 hpr with he | he
    · subst he
      by_cases hfe : ct.files.isEmpty
      · have hfs : ct.files = [] := by simpa using hfe
        simp only [hfe, if_true]
        have hnp : ¬ cn ∈ (pendOf tl).map Prod.fst :=
          fun hmem => hnd' (pendOf_keys_sub tl cn hmem)
        simp [getPend, lookupA_of_not_mem _ _ hnp, hfs]
      · simp [hfe, getPend, lookupA]
    · have hne : ¬ cn = pr.1 := by
        intro hce
        exact hnd' (by rw [hce]; exact List.mem_map_of_mem Prod.fst he)
      by_cases hfe : ct.files.isEmpty
      · simp only [hfe, if_true, List.nil_append]
        exact ih hnd.2 pr he
      · simp only [hfe, if_false]
        have := ih hnd.2 pr he
        simp only [getPend, lookupA, List.singleton_append, if_neg hne] at this ⊢
        exact this

theorem upsertList_archs_fs (pw : String) (ds : List (String × FTree))
    (fs : List (String × Content))
    (h7 : ∀ k ∈ fs.map Prod.fst, ends7z k = false)
    (hnd : nodupKeys (fs.map Prod.fst) = true) :
    upsertList (archsOf pw ds) fs = archsOf pw ds ++ fs := by
  apply upsertList_fresh fs (archsOf pw ds) _ hnd
  intro k hk
  apply lookupA_of_not_mem
  intro hmem
  have := archsOf_keys_7z pw ds k hmem
  rw [h7 k hk] at this
  cases this

theorem filter_keys_archs (pw : String) (ds : List (String × FTree))
    (fs : List (String × Content))
    (h7 : ∀ k ∈ fs.map Prod.fst, ends7z k = false) :
    (((archsOf pw ds ++ fs).map Prod.fst).filter ends7z) =
      (archsOf pw ds).map Prod.fst := by
  rw [List.map_append, List.filter_append]
  have h1 : ((archsOf pw ds).map Prod.fst).filter ends7z =
      (archsOf pw ds).map Prod.fst :=
    List.filter_eq_self.2 (archsOf_keys_7z pw ds)
  have h2 : (fs.map Prod.fst).filter ends7z = [] := by
    apply List.filter_eq_nil_iff.2
    intro k hk
    simp [h7 k hk]
  rw [h1, h2, List.append_nil]

theorem archsOf_nil_files (pw : String) (ds : List (String × FTree))
    (h : archsOf pw ds = []) : ∀ pr ∈ ds, pr.2.files = [] := by
  intro pr hpr
  obtain ⟨cn, ct⟩ := pr
  simp only [archsOf] at h
  have h2 := List.filterMap_eq_nil_iff.1 h (cn, ct) hpr
  rw [childArchive_eq] at h2
  by_cases hfe : ct.files.isEmpty
  · simpa using hfe
  · simp [hfe] at h2

mutual
theorem decD_closed : ∀ (t : FTree) (pw : String) (P : List String) (cwd : List String),
    wfT t = true → no7zT t = true →
    (decD idealArch pw P t.files cwd (encT pw t)).t = t ∧
    (decD idealArch pw P t.files cwd (encT pw t)).err = none
  | FTree.node fs ds, pw, P, cwd => by
    intro hwf h7
    have hndf : nodupKeys (fs.map Prod.fst) = true := by
      simp only [wfT, Bool.and_eq_true, FTree.files_node] at hwf
      tauto
    have hndd : nodupKeys (ds.map Prod.fst) = true := by
      simp only [wfT, Bool.and_eq_true] at hwf
      tauto
    have hwl : wfL ds = true := by
      simp only [wfT, Bool.and_eq_true] at hwf
      tauto
    have hgoodall : ((ds.map Prod.fst).all goodDirName) = true := by
      simp only [wfT, Bool.and_eq_true] at hwf
      tauto
    have hgood : ∀ k ∈ ds.map Prod.fst, goodDirName k = true := by
      intro k hk
      exact List.all_eq_true.1 hgoodall k hk
    have h7f : ∀ k ∈ fs.map Prod.fst, ends7z k = false := by
      simp only [no7zT, Bool.and_eq_true] at h7
      intro k hk
      have := List.all_eq_true.1 h7.1 k hk
      simpa using this
    have h7l : no7zL ds = true := by
      simp only [no7zT, Bool.and_eq_true] at h7
      exact h7.2
    have hup : upsertList (archsOf pw ds) fs = archsOf pw ds ++ fs :=
      upsertList_archs_fs pw ds fs h7f hndf
    have hTF : (FTree.node fs ds).files = fs := rfl
    have hET : encT pw (FTree.node fs ds) =
        FTree.node (archsOf pw ds) (encTL pw ds) := rfl
    rw [hTF, hET]
    simp only [decD]
    rw [hup]
    by_cases hfe0 : (archsOf pw ds ++ fs).isEmpty
    · have hboth : archsOf pw ds = [] ∧ fs = [] := by
        have := hfe0
        rw [List.isEmpty_iff, List.append_eq_nil] at this
        exact this
      have hcf : ∀ pr ∈ ds, getPend [] pr.1 = pr.2.files := by
        intro pr hpr
        rw [archsOf_nil_files pw ds hboth.1 pr hpr]
        rfl
      have hc := decChildren_closed ds pw P [] cwd hwl h7l hcf
      rw [if_pos hfe0]
      constructor
      · show FTree.node (archsOf pw ds ++ fs)
            (decChildren idealArch pw P [] cwd (encTL pw ds)).ds = FTree.node fs ds
        rw [hc.1, hboth.1, List.nil_append]
      · show (decChildren idealArch pw P [] cwd (encTL pw ds)).err = none
        exact hc.2
    · rw [if_neg hfe0]
      rw [filter_keys_archs pw ds fs h7f]
      obtain ⟨tr1, htr⟩ := decLoop_enc pw P (encTL pw ds) ds fs
        ((encTL pw ds).map Prod.fst) [] [] []
        (by
          intro pr hpr
          rw [encTL_keys]
          have hm : pr.1 ∈ ds.map Prod.fst := List.mem_map_of_mem Prod.fst hpr
          simpa [List.contains, List.elem_eq_mem] using hm)
        (fun pr hpr => lookupA_encTL_of_mem pw ds hndd pr hpr)
        (fun pr hpr => wfL_mem ds hwl pr hpr)
        (fun pr hpr => rfl)
        (fun pr hpr => hgood pr.1 (List.mem_map_of_mem Prod.fst hpr))
        hndd
      rw [htr]
      have hcf : ∀ pr ∈ ds, getPend ([] ++ pendOf ds) pr.1 = pr.2.files := by
        intro pr hpr
        rw [List.nil_append]
        exact getPend_pendOf ds hndd pr hpr
      have hc := decChildren_closed ds pw P ([] ++ pendOf ds) cwd hwl h7l hcf
      constructor
      · show FTree.node fs
            ((decChildren idealArch pw P ([] ++ pendOf ds) cwd (encTL pw ds)).ds ++
              newDests ⟨fs, (encTL pw ds).map Prod.fst, [] ++ pendOf ds, [], tr1, none⟩) =
          FTree.node fs ds
        rw [hc.1]
        simp [newDests]
      · show (decChildren idealArch pw P ([] ++ pendOf ds) cwd (encTL pw ds)).err = none
        exact hc.2

theorem decChildren_closed : ∀ (ds : List (String × FTree)) (pw : String)
    (P : List String) (pend : List (String × List (String × Content)))
    (cwd : List String),
    wfL ds = true → no7zL ds = true →
    (∀ pr ∈ ds, getPend pend pr.1 = pr.2.files) →
    (decChildren idealArch pw P pend cwd (encTL pw ds)).ds = ds ∧
    (decChildren idealArch pw P pend cwd (encTL pw ds)).err = none
  | [], pw, P, pend, cwd => by
    intro _ _ _
    exact ⟨by simp [encTL, decChildren], by simp [encTL, decChildren]⟩
  | (cn, ct) :: rest, pw, P, pend, cwd => by
    intro hwl h7l hpend
    simp only [wfL, Bool.and_eq_true] at hwl
    simp only [no7zL, Bool.and_eq_true] at h7l
    have hgp : getPend pend cn = ct.files := hpend (cn, ct) (by simp)
    have hr := decD_closed ct pw (P ++ [cn]) cwd hwl.1 h7l.1
    rw [show encTL pw ((cn, ct) :: rest) =
        (cn, encT pw ct) :: encTL pw rest from rfl]
    simp only [decChildren]
    rw [hgp]
    have herr := hr.2
    have hrest := decChildren_closed rest pw P pend cwd hwl.2 h7l.2
      (fun pr hpr => hpend pr (by simp [hpr]))
    constructor
    · simp only [herr]
      rw [hr.1, hrest.1]
    · simp only [herr]
      exact hrest.2
end

/-- Claim C1, as stated, is false: encrypting a tree whose root has immediate
files writes the root archive as a sibling of the root, outside the tree, so
decrypting the encrypted tree does not restore the root's files. -/
theorem treecrypt_C1_cx :
    (decD idealArch ("pw") [("root")] [] []
        (encD idealArch ("pw") [] ("root") [] []
          (FTree.node [(("a"), Content.bytes [1])] [])).t).t ≠
      FTree.node [(("a"), Content.bytes [1])] [] := by
  have heval : (decD idealArch ("pw") [("root")] [] []
      (encD idealArch ("pw") [] ("root") [] []
        (FTree.node [(("a"), Content.bytes [1])] [])).t).t = FTree.node [] [] := rfl
  rw [heval]
  intro h
  injection h with h1 h2
  cases h1

/-- Claim C1, amended: the round trip restores the tree exactly for every
well-formed tree whose root directory has no immediate files and in which no
file name ends in the archive extension. -/
theorem treecrypt_C1_roundtrip (pw name : String) (pp cwd cwd2 : List String)
    (t : FTree) (hwf : wfT t = true) (h7 : no7zT t = true)
    (hroot : t.files = []) :
    (encD idealArch pw pp name [] cwd t).err = none ∧
    (decD idealArch pw (pp ++ [name]) [] cwd2
        (encD idealArch pw pp name [] cwd t).t).err = none ∧
    (decD idealArch pw (pp ++ [name]) [] cwd2
        (encD idealArch pw pp name [] cwd t).t).t = t := by
  have he := encD_closed t pw pp name [] cwd hwf (by rfl)
  have hd := decD_closed t pw (pp ++ [name]) cwd2 hwf h7
  rw [hroot] at hd
  refine ⟨he.2.2, ?_, ?_⟩
  · rw [he.2.1]
    exact hd.2
  · rw [he.2.1]
    exact hd.1

theorem treecrypt_C1_roundtrip_wit :
    wfT tC1 = true ∧ no7zT tC1 = true ∧ tC1.files = [] ∧
    (decD idealArch ("pw") [("r")] [] []
        (encD idealArch ("pw") [] ("r") [] [] tC1).t).t = tC1 :=
  ⟨by decide, by decide, rfl,
    (treecrypt_C1_roundtrip ("pw") ("r") [] [] [] tC1 (by decide) (by decide) rfl).2.2⟩

theorem preorderDirs_eq (P : List String) (t : FTree) :
    preorderDirs P t = P :: preorderDirsL P t.dirs := by
  cases t
  rfl

mutual
theorem encD_shape : ∀ (t : FTree) (A : Arch) (pw : String) (pp : List String)
    (name : String) (pf : List (String × Content)) (cwd : List String),
    ∃ s ctr : List Ev,
      (encD A pw pp name pf cwd t).tr = Ev.visit (pp ++ [name]) :: (s ++ ctr) ∧
      (∀ e ∈ s, pathOf e = pp ++ [name] ∧ isVisit e = false) ∧
      (∀ e ∈ ctr, (pp ++ [name]).length < (pathOf e).length) ∧
      ((encD A pw pp name pf cwd t).err = none →
        visitPaths ctr = preorderDirsL (pp ++ [name]) t.dirs)
  | FTree.node fs ds, A, pw, pp, name, pf, cwd => by
    have hch := encChildren_shape ds A pw (pp ++ [name])
    by_cases hfe : fs.isEmpty
    · refine ⟨[], (encChildren A pw (pp ++ [name]) fs cwd ds).tr, ?_, by simp, ?_, ?_⟩
      · simp [encD, hfe]
      · exact (hch fs cwd).1
      · intro herr
        have : (encChildren A pw (pp ++ [name]) fs cwd ds).err = none := by
          simp only [encD, if_pos hfe] at herr
          exact herr
        simpa using (hch fs cwd).2 this
    · cases hst : (lookupA pf (name ++ sevenZ)).isSome with
      | true =>
        cases hcr : compressResult A pw (pp ++ [name]) pf (name ++ sevenZ) fs with
        | none =>
          refine ⟨[Ev.rmBraces (pp ++ [name]), Ev.compress (pp ++ [name]) true], [],
            ?_, ?_, by simp, ?_⟩
          · simp [encD, hfe, hst, hcr]
          · intro e he
            simp at he
            rcases he with rfl | rfl <;> exact ⟨rfl, rfl⟩
          · intro herr
            simp [encD, hfe, hst, hcr] at herr
        | some pf1 =>
          cases hdm : (lookupA pf1 (name ++ sevenZ)).isSome with
          | true =>
            refine ⟨[Ev.rmBraces (pp ++ [name]), Ev.compress (pp ++ [name]) true,
              Ev.removeFiles (pp ++ [name]) (fs.map Prod.fst)],
              (encChildren A pw (pp ++ [name])
                (removeKeys fs (fs.map Prod.fst)) cwd ds).tr, ?_, ?_, ?_, ?_⟩
            · simp [encD, hfe, hst, hcr, hdm]
            · intro e he
              simp at he
              rcases he with rfl | rfl | rfl <;> exact ⟨rfl, rfl⟩
            · exact (hch _ cwd).1
            · intro herr
              simp only [encD, if_neg hfe, hst, hcr, hdm] at herr
              simpa using (hch _ cwd).2 herr
          | false =>
            refine ⟨[Ev.rmBraces (pp ++ [name]), Ev.compress (pp ++ [name]) true],
              (encChildren A pw (pp ++ [name]) fs cwd ds).tr, ?_, ?_, ?_, ?_⟩
            · simp [encD, hfe, hst, hcr, hdm]
            · intro e he
              simp at he
              rcases he with rfl | rfl <;> exact ⟨rfl, rfl⟩
            · exact (hch _ cwd).1
            · intro herr
              simp only [encD, if_neg hfe, hst, hcr, hdm] at herr
              simpa using (hch _ cwd).2 herr
      | false =>
        cases hcr : compressResult A pw (pp ++ [name]) pf (name ++ sevenZ) fs with
        | none =>
          refine ⟨[Ev.compress (pp ++ [name]) false], [], ?_, ?_, by simp, ?_⟩
          · simp [encD, hfe, hst, hcr]
          · intro e he
            simp at he
            subst he
            exact ⟨rfl, rfl⟩
          · intro herr
            simp [encD, hfe, hst, hcr] at herr
        | some pf1 =>
          cases hdm : (lookupA pf1 (name ++ sevenZ)).isSome with
          | true =>
            refine ⟨[Ev.compress (pp ++ [name]) false,
              Ev.removeFiles (pp ++ [name]) (fs.map Prod.fst)],
              (encChildren A pw (pp ++ [name])
                (removeKeys fs (fs.map Prod.fst)) cwd ds).tr, ?_, ?_, ?_, ?_⟩
            · simp [encD, hfe, hst, hcr, hdm]
            · intro e he
              simp at he
              rcases he with rfl | rfl <;> exact ⟨rfl, rfl⟩
            · exact (hch _ cwd).1
            · intro herr
              simp only [encD, if_neg hfe, hst, hcr, hdm] at herr
              simpa using (hch _ cwd).2 herr
          | false =>
            refine ⟨[Ev.compress (pp ++ [name]) false],
              (encChildren A pw (pp ++ [name]) fs cwd ds).tr, ?_, ?_, ?_, ?_⟩
            · simp [encD, hfe, hst, hcr, hdm]
            · intro e he
              simp at he
              subst he
              exact ⟨rfl, rfl⟩
            · exact (hch _ cwd).1
            · intro herr
              simp only [encD, if_neg hfe, hst, hcr, hdm] at herr
              simpa using (hch _ cwd).2 herr

theorem encChildren_shape : ∀ (ds : List (String × FTree)) (A : Arch) (pw : String)
    (P : List String) (pfD : List (String × Content)) (cwd : List String),
    (∀ e ∈ (encChildren A pw P pfD cwd ds).tr, P.length < (pathOf e).length) ∧
    ((encChildren A pw P pfD cwd ds).err = none →
      visitPaths (encChildren A pw P pfD cwd ds).tr = preorderDirsL P ds)
  | [], A, pw, P, pfD, cwd => by
    constructor
    · intro e he
      simp [encChildren] at he
    · intro _
      simp [encChildren, visitPaths, preorderDirsL]
  | (cn, ct) :: rest, A, pw, P, pfD, cwd => by
    obtain ⟨s, ctr, htr, hs, hctr, hvis⟩ := encD_shape ct A pw P cn pfD cwd
    have hlen : ∀ e ∈ (encD A pw P cn pfD cwd ct).tr, P.length < (pathOf e).length := by
      intro e he
      rw [htr] at he
      rcases List.mem_cons.1 he with rfl | he
      · simp [pathOf]
      · rcases List.mem_append.1 he with he | he
        · rw [(hs e he).1]
          simp
        · have := hctr e he
          simp at this ⊢
          omega
    cases herr : (encD A pw P cn pfD cwd ct).err with
    | some e0 =>
      constructor
      · intro e he
        simp only [encChildren, herr] at he
        exact hlen e he
      · intro hc
        simp only [encChildren, herr] at hc
        cases hc
    | none =>
      have hrest := encChildren_shape rest A pw P
        (encD A pw P cn pfD cwd ct).pf cwd
      constructor
      · intro e he
        simp only [encChildren, herr] at he
        rcases List.mem_append.1 he with he | he
        · exact hlen e he
        · exact hrest.1 e he
      · intro hc
        simp only [encChildren, herr] at hc ⊢
        rw [visitPaths_append, htr]
        have hsv : visitPaths s = [] :=
          visitPaths_of_no_visit s (fun e he => (hs e he).2)
        have h1 : visitPaths (Ev.visit (P ++ [cn]) :: (s ++ ctr)) =
            (P ++ [cn]) :: visitPaths ctr := by
          show (P ++ [cn]) :: visitPaths (s ++ ctr) = (P ++ [cn]) :: visitPaths ctr
          rw [visitPaths_append, hsv, List.nil_append]
        rw [h1, hvis herr, hrest.2 hc]
        simp [preorderDirsL, preorderDirs_eq]
end

mutual
theorem decD_shape : ∀ (t : FTree) (A : Arch) (pw : String) (P : List String)
    (pending : List (String × Content)) (cwd : List String),
    ∃ s ctr : List Ev,
      (decD A pw P pending cwd t).tr = Ev.visit P :: (s ++ ctr) ∧
      (∀ e ∈ s, pathOf e = P ∧ isVisit e = false) ∧
      (∀ e ∈ ctr, P.length < (pathOf e).length) ∧
      ((decD A pw P pending cwd t).err = none →
        visitPaths ctr = preorderDirsL P t.dirs)
  | FTree.node fs ds, A, pw, P, pending, cwd => by
    have hch := decChildren_shape ds A pw P
    by_cases hfe0 : (upsertList fs pending).isEmpty
    · refine ⟨[], (decChildren A pw P [] cwd ds).tr, ?_, by simp, ?_, ?_⟩
      · simp [decD, hfe0]
      · exact (hch [] cwd).1
      · intro herr
        simp only [decD, if_pos hfe0] at herr
        simpa using (hch [] cwd).2 herr
    · obtain ⟨add, hadd, haddp⟩ := decLoop_tr A pw P ds
        (((upsertList fs pending).map Prod.fst).filter ends7z)
        ⟨upsertList fs pending, ds.map Prod.fst, [], [], [], none⟩
      cases hst : (decLoop A pw P ds
          (((upsertList fs pending).map Prod.fst).filter ends7z)
          ⟨upsertList fs pending, ds.map Prod.fst, [], [], [], none⟩).err with
      | some e0 =>
        refine ⟨add, [], ?_, ?_, by simp, ?_⟩
        · simp only [decD, if_neg hfe0, hst]
          rw [hadd]
          simp
        · intro e he
          exact ⟨(haddp e he).1, (haddp e he).2.1⟩
        · intro herr
          simp only [decD, if_neg hfe0, hst] at herr
          cases herr
      | none =>
        refine ⟨add, (decChildren A pw P
            (decLoop A pw P ds (((upsertList fs pending).map Prod.fst).filter ends7z)
              ⟨upsertList fs pending, ds.map Prod.fst, [], [], [], none⟩).pend
            cwd ds).tr, ?_, ?_, ?_, ?_⟩
        · simp only [decD, if_neg hfe0, hst]
          rw [hadd]
          simp
        · intro e he
          exact ⟨(haddp e he).1, (haddp e he).2.1⟩
        · exact (hch _ cwd).1
        · intro herr
          simp only [decD, if_neg hfe0, hst] at herr
          simpa using (hch _ cwd).2 herr

theorem decChildren_shape : ∀ (ds : List (String × FTree)) (A : Arch) (pw : String)
    (P : List String) (pend : List (String × List (String × Content)))
    (cwd : List String),
    (∀ e ∈ (decChildren A pw P pend cwd ds).tr, P.length < (pathOf e).length) ∧
    ((decChildren A pw P pend cwd ds).err = none →
      visitPaths (decChildren A pw P pend cwd ds).tr = preorderDirsL P ds)
  | [], A, pw, P, pend, cwd => by
    constructor
    · intro e he
      simp [decChildren] at he
    · intro _
      simp [decChildren, visitPaths, preorderDirsL]
  | (cn, ct) :: rest, A, pw, P, pend, cwd => by
    obtain ⟨s, ctr, htr, hs, hctr, hvis⟩ :=
      decD_shape ct A pw (P ++ [cn]) (getPend pend cn) cwd
    have hlen : ∀ e ∈ (decD A pw (P ++ [cn]) (getPend pend cn) cwd ct).tr,
        P.length < (pathOf e).length := by
      intro e he
      rw [htr] at he
      rcases List.mem_cons.1 he with rfl | he
      · simp [pathOf]
      · rcases List.mem_append.1 he with he | he
        · rw [(hs e he).1]
          simp
        · have := hctr e he
          simp at this ⊢
          omega
    cases herr : (decD A pw (P ++ [cn]) (getPend pend cn) cwd ct).err with
    | some e0 =>
      constructor
      · intro e he
        simp only [decChildren, herr] at he
        exact hlen e he
      · intro hc
        simp only [decChildren, herr] at hc
        cases hc
    | none =>
      have hrest := decChildren_shape rest A pw P pend cwd
      constructor
      · intro e he
        simp only [decChildren, herr] at he
        rcases List.mem_append.1 he with he | he
        · exact hlen e he
        · exact hrest.1 e he
      · intro hc
        simp only [decChildren, herr] at hc ⊢
        rw [visitPaths_append, htr]
        have hsv : visitPaths s = [] :=
          visitPaths_of_no_visit s (fun e he => (hs e he).2)
        have h1 : visitPaths (Ev.visit (P ++ [cn]) :: (s ++ ctr)) =
            (P ++ [cn]) :: visitPaths ctr := by
          show (P ++ [cn]) :: visitPaths (s ++ ctr) = (P ++ [cn]) :: visitPaths ctr
          rw [visitPaths_append, hsv, List.nil_append]
        rw [h1, hvis herr, hrest.2 hc]
        simp [preorderDirsL, preorderDirs_eq]
end

theorem mem_preorderDirsL (P : List String) :
    ∀ (ds : List (String × FTree)), ∀ cn ∈ ds.map Prod.fst,
      (P ++ [cn]) ∈ preorderDirsL P ds := by
  intro ds
  induction ds with
  | nil => simp
  | cons hd tl ih =>
    obtain ⟨cn0, ct0⟩ := hd
    intro cn hcn
    simp only [List.map_cons, List.mem_cons] at hcn
    show (P ++ [cn]) ∈ preorderDirs (P ++ [cn0]) ct0 ++ preorderDirsL P tl
    rcases hcn with rfl | hcn
    · rw [preorderDirs_eq]
      simp
    · exact List.mem_append.2 (Or.inr (ih cn hcn))

/-- Claim C8: the traversal is strictly pre-order.  On a successful run the
visit events of either operation list exactly the directories of the input
tree in pre-order, the trace starts with the visit of the root followed
first by the root's own file-level events (all at the root, none of them a
visit) and only then by events of strictly deeper directories. -/
theorem treecrypt_C8_preorder (A : Arch) (pw name : String)
    (pp cwd cwd2 : List String) (pf : List (String × Content))
    (pending : List (String × Content)) (t t2 : FTree)
    (hE : (encD A pw pp name pf cwd t).err = none)
    (hD : (decD A pw (pp ++ [name]) pending cwd2 t2).err = none) :
    visitPaths (encD A pw pp name pf cwd t).tr = preorderDirs (pp ++ [name]) t ∧
    (∃ s ctr : List Ev,
      (encD A pw pp name pf cwd t).tr = Ev.visit (pp ++ [name]) :: (s ++ ctr) ∧
      (∀ e ∈ s, pathOf e = pp ++ [name] ∧ isVisit e = false) ∧
      (∀ e ∈ ctr, (pp ++ [name]).length < (pathOf e).length)) ∧
    visitPaths (decD A pw (pp ++ [name]) pending cwd2 t2).tr =
      preorderDirs (pp ++ [name]) t2 ∧
    (∃ s ctr : List Ev,
      (decD A pw (pp ++ [name]) pending cwd2 t2).tr =
        Ev.visit (pp ++ [name]) :: (s ++ ctr) ∧
      (∀ e ∈ s, pathOf e = pp ++ [name] ∧ isVisit e = false) ∧
      (∀ e ∈ ctr, (pp ++ [name]).length < (pathOf e).length)) := by
  obtain ⟨s, ctr, htr, hs, hctr, hvis⟩ := encD_shape t A pw pp name pf cwd
  obtain ⟨s2, ctr2, htr2, hs2, hctr2, hvis2⟩ :=
    decD_shape t2 A pw (pp ++ [name]) pending cwd2
  have hsv : visitPaths s = [] :=
    visitPaths_of_no_visit s (fun e he => (hs e he).2)
  have hsv2 : visitPaths s2 = [] :=
    visitPaths_of_no_visit s2 (fun e he => (hs2 e he).2)
  refine ⟨?_, ⟨s, ctr, htr, hs, hctr⟩, ?_, ⟨s2, ctr2, htr2, hs2, hctr2⟩⟩
  · rw [htr]
    show (pp ++ [name]) :: visitPaths (s ++ ctr) = preorderDirs (pp ++ [name]) t
    rw [visitPaths_append, hsv, List.nil_append, hvis hE, preorderDirs_eq]
  · rw [htr2]
    show (pp ++ [name]) :: visitPaths (s2 ++ ctr2) = preorderDirs (pp ++ [name]) t2
    rw [visitPaths_append, hsv2, List.nil_append, hvis2 hD, preorderDirs_eq]

theorem treecrypt_C8_preorder_wit :
    (encD idealArch ("pw") [] ("r") [] [] tC1).err = none ∧
    (decD idealArch ("pw") ([] ++ [("r")]) [] [] tC1).err = none ∧
    visitPaths (encD idealArch ("pw") [] ("r") [] [] tC1).tr =
      preorderDirs ([] ++ [("r")]) tC1 :=
  ⟨rfl, rfl,
    (treecrypt_C8_preorder idealArch ("pw") ("r") [] [] [] [] [] tC1 tC1 rfl rfl).1⟩

/-- Claim C7: a directory with zero immediate files is left unchanged by
either operation: the parent's files (where this directory's archive would
go) are untouched, the only event of the run at this directory is its visit
(no archiver call, no deletion, hence no error from this level), while the
subdirectories collected by the listing are still recursed into; with no
subdirectories at all, both operations are a complete no-op. -/
theorem treecrypt_C7_empty_dir (A : Arch) (pw name : String)
    (pp cwd cwd2 : List String) (pf : List (String × Content))
    (ds : List (String × FTree)) :
    (encD A pw pp name pf cwd (FTree.node [] ds)).pf = pf ∧
    (∀ e ∈ (encD A pw pp name pf cwd (FTree.node [] ds)).tr,
      pathOf e = pp ++ [name] → e = Ev.visit (pp ++ [name])) ∧
    (∀ e ∈ (decD A pw (pp ++ [name]) [] cwd2 (FTree.node [] ds)).tr,
      pathOf e = pp ++ [name] → e = Ev.visit (pp ++ [name])) ∧
    ((encD A pw pp name pf cwd (FTree.node [] ds)).err = none →
      ∀ cn ∈ ds.map Prod.fst,
        Ev.visit ((pp ++ [name]) ++ [cn]) ∈ (encD A pw pp name pf cwd (FTree.node [] ds)).tr) ∧
    ((decD A pw (pp ++ [name]) [] cwd2 (FTree.node [] ds)).err = none →
      ∀ cn ∈ ds.map Prod.fst,
        Ev.visit ((pp ++ [name]) ++ [cn]) ∈
          (decD A pw (pp ++ [name]) [] cwd2 (FTree.node [] ds)).tr) ∧
    (ds = [] →
      encD A pw pp name pf cwd (FTree.node [] ds) =
        ⟨pf, FTree.node [] [], true, cwd, [Ev.visit (pp ++ [name])], none⟩ ∧
      decD A pw (pp ++ [name]) [] cwd2 (FTree.node [] ds) =
        ⟨FTree.node [] [], true, cwd2, [Ev.visit (pp ++ [name])], none⟩) := by
  have htrE : (encD A pw pp name pf cwd (FTree.node [] ds)).tr =
      Ev.visit (pp ++ [name]) :: (encChildren A pw (pp ++ [name]) [] cwd ds).tr := by
    simp [encD]
  have htrD : (decD A pw (pp ++ [name]) [] cwd2 (FTree.node [] ds)).tr =
      Ev.visit (pp ++ [name]) :: (decChildren A pw (pp ++ [name]) [] cwd2 ds).tr := by
    simp [decD, upsertList]
  have herrE : (encD A pw pp name pf cwd (FTree.node [] ds)).err =
      (encChildren A pw (pp ++ [name]) [] cwd ds).err := by
    simp [encD]
  have herrD : (decD A pw (pp ++ [name]) [] cwd2 (FTree.node [] ds)).err =
      (decChildren A pw (pp ++ [name]) [] cwd2 ds).err := by
    simp [decD, upsertList]
  refine ⟨by simp [encD], ?_, ?_, ?_, ?_, ?_⟩
  · intro e he hp
    rw [htrE] at he
    rcases List.mem_cons.1 he with rfl | he
    · rfl
    · have := (encChildren_shape ds A pw (pp ++ [name]) [] cwd).1 e he
      rw [hp] at this
      omega
  · intro e he hp
    rw [htrD] at he
    rcases List.mem_cons.1 he with rfl | he
    · rfl
    · have := (decChildren_shape ds A pw (pp ++ [name]) [] cwd2).1 e he
      rw [hp] at this
      omega
  · intro herr cn hcn
    rw [herrE] at herr
    have hvp := (encChildren_shape ds A pw (pp ++ [name]) [] cwd).2 herr
    have hmem : ((pp ++ [name]) ++ [cn]) ∈
        visitPaths (encChildren A pw (pp ++ [name]) [] cwd ds).tr := by
      rw [hvp]
      exact mem_preorderDirsL (pp ++ [name]) ds cn hcn
    have := (mem_visitPaths _ _).1 hmem
    rw [htrE]
    exact List.mem_cons.2 (Or.inr this)
  · intro herr cn hcn
    rw [herrD] at herr
    have hvp := (decChildren_shape ds A pw (pp ++ [name]) [] cwd2).2 herr
    have hmem : ((pp ++ [name]) ++ [cn]) ∈
        visitPaths (decChildren A pw (pp ++ [name]) [] cwd2 ds).tr := by
      rw [hvp]
      exact mem_preorderDirsL (pp ++ [name]) ds cn hcn
    have := (mem_visitPaths _ _).1 hmem
    rw [htrD]
    exact List.mem_cons.2 (Or.inr this)
  · intro hds
    subst hds
    exact ⟨rfl, rfl⟩

theorem treecrypt_C7_empty_dir_wit :
    (encD idealArch ("pw") [] ("r") [(("x"), Content.bytes [7])] []
        (FTree.node [] [])).pf = [(("x"), Content.bytes [7])] ∧
    encD idealArch ("pw") [] ("r") [(("x"), Content.bytes [7])] []
        (FTree.node [] []) =
      ⟨[(("x"), Content.bytes [7])], FTree.node [] [], true, [],
        [Ev.visit ([] ++ [("r")])], none⟩ ∧
    decD idealArch ("pw") ([] ++ [("r")]) [] [] (FTree.node [] []) =
      ⟨FTree.node [] [], true, [], [Ev.visit ([] ++ [("r")])], none⟩ := by
  have h := treecrypt_C7_empty_dir idealArch ("pw") ("r") [] [] []
    [(("x"), Content.bytes [7])] []
  exact ⟨h.1, (h.2.2.2.2.2 rfl).1, (h.2.2.2.2.2 rfl).2⟩

/-- Claim C10: both per-directory operations restore the previously current
working directory by the time they return, on success and on failure alike
(the cd context manager's finally block, lines 46-51). -/
theorem treecrypt_C10_cwd_restored (A : Arch) (pw name : String)
    (pp P cwd cwd2 : List String) (pf : List (String × Content))
    (pending : List (String × Content)) (t t2 : FTree) :
    (encD A pw pp name pf cwd t).cwd = cwd ∧
    (decD A pw P pending cwd2 t2).cwd = cwd2 := by
  constructor
  · cases t with
    | node fs ds =>
      by_cases hfe : fs.isEmpty
      · simp [encD, hfe]
      · cases hcr : compressResult A pw (pp ++ [name]) pf (name ++ sevenZ) fs <;>
          simp [encD, hfe, hcr]
  · cases t2 with
    | node fs ds =>
      by_cases hfe0 : (upsertList fs pending).isEmpty
      · simp [decD, hfe0]
      · cases hst : (decLoop A pw P ds
            (((upsertList fs pending).map Prod.fst).filter ends7z)
            ⟨upsertList fs pending, ds.map Prod.fst, [], [], [], none⟩).err <;>
          simp [decD, hfe0, hst]

/-- Claim C2: when the archiver's compress invocation for a directory with
files exits non-zero, the raised error propagates, the directory's files
are untouched (its entire subtree is returned unchanged, the deletion step
is never reached), no archive file appears at the computed archive path in
the parent (the parent's files are unchanged), and the working directory is
restored. -/
theorem treecrypt_C2_compress_failure (A : Arch) (pw name : String)
    (pp cwd : List String) (pf fs : List (String × Content))
    (ds : List (String × FTree)) (hne : fs ≠ [])
    (hfail : A.compressOk (pp ++ [name]) = false) :
    (encD A pw pp name pf cwd (FTree.node fs ds)).err = some Err.archiver ∧
    (encD A pw pp name pf cwd (FTree.node fs ds)).t = FTree.node fs ds ∧
    (encD A pw pp name pf cwd (FTree.node fs ds)).pf = pf ∧
    (encD A pw pp name pf cwd (FTree.node fs ds)).cwd = cwd := by
  have hcr : compressResult A pw (pp ++ [name]) pf (name ++ sevenZ) fs = none := by
    unfold compressResult
    cases hlk : lookupA pf (name ++ sevenZ) with
    | none => simp [hfail]
    | some c =>
      cases c with
      | bytes d => rfl
      | archive pw2 es => simp [hfail]
  have hfe : ¬ fs.isEmpty = true := by simpa using hne
  refine ⟨?_, ?_, ?_, ?_⟩ <;> simp [encD, hfe, hcr]

theorem treecrypt_C2_compress_failure_wit :
    ([(("a"), Content.bytes [1])] : List (String × Content)) ≠ [] ∧
    failC.compressOk ([] ++ [("d")]) = false ∧
    (encD failC ("pw") [] ("d") [] [("home")]
      (FTree.node [(("a"), Content.bytes [1])] [])).err = some Err.archiver ∧
    (encD failC ("pw") [] ("d") [] [("home")]
      (FTree.node [(("a"), Content.bytes [1])] [])).t =
        FTree.node [(("a"), Content.bytes [1])] [] := by
  have h := treecrypt_C2_compress_failure failC ("pw") ("d") [] [("home")] []
    [(("a"), Content.bytes [1])] [] (by simp) rfl
  exact ⟨by simp, rfl, h.1, h.2.1⟩

theorem ne_of_ends7z (k aname : String) (h1 : ends7z k = false)
    (h2 : ends7z aname = true) : k ≠ aname := by
  intro he
  rw [he, h2] at h1
  cases h1

theorem compressResult_some_keeps (A : Arch) (pw : String) (P : List String)
    (pf : List (String × Content)) (aname : String) (fs pf1 : List (String × Content))
    (h : compressResult A pw P pf aname fs = some pf1) (k : String) (hk : k ≠ aname) :
    lookupA pf1 k = lookupA pf k := by
  unfold compressResult at h
  cases hlk : lookupA pf aname with
  | none =>
    rw [hlk] at h
    by_cases hok : A.compressOk P = true
    · by_cases hcrt : A.compressCreates P = true
      · simp [hok, hcrt] at h
        rw [← h]
        exact lookupA_upsertA_ne pf aname k _ hk
      · simp [hok, hcrt] at h
        rw [← h]
    · simp [hok] at h
  | some c =>
    rw [hlk] at h
    cases c with
    | bytes d => cases h
    | archive pw2 es =>
      by_cases hok : A.compressOk P = true
      · by_cases hcrt : A.compressCreates P = true
        · simp [hok, hcrt] at h
          rw [← h]
          exact lookupA_upsertA_ne pf aname k _ hk
        · simp [hok, hcrt] at h
          rw [← h]
      · simp [hok] at h

mutual
theorem encD_pf_keeps : ∀ (t : FTree) (A : Arch) (pw : String) (pp : List String)
    (name : String) (pf : List (String × Content)) (cwd : List String) (k : String),
    ends7z k = false →
    lookupA (encD A pw pp name pf cwd t).pf k = lookupA pf k
  | FTree.node fs ds, A, pw, pp, name, pf, cwd, k => by
    intro hk
    by_cases hfe : fs.isEmpty
    · simp [encD, hfe]
    · cases hcr : compressResult A pw (pp ++ [name]) pf (name ++ sevenZ) fs with
      | none => simp [encD, hfe, hcr]
      | some pf1 =>
        have hkeep := compressResult_some_keeps A pw (pp ++ [name]) pf (name ++ sevenZ)
          fs pf1 hcr k (ne_of_ends7z k (name ++ sevenZ) hk (ends7z_append name))
        simp [encD, hfe, hcr, hkeep]

theorem encChildren_pf_keeps : ∀ (ds : List (String × FTree)) (A : Arch) (pw : String)
    (P : List String) (pfD : List (String × Content)) (cwd : List String) (k : String),
    ends7z k = false →
    lookupA (encChildren A pw P pfD cwd ds).pfD k = lookupA pfD k
  | [], A, pw, P, pfD, cwd, k => by
    intro _
    simp [encChildren]
  | (cn, ct) :: rest, A, pw, P, pfD, cwd, k => by
    intro hk
    have h1 := encD_pf_keeps ct A pw P cn pfD cwd k hk
    cases herr : (encD A pw P cn pfD cwd ct).err with
    | some e0 => simp only [encChildren, herr]; exact h1
    | none =>
      have h2 := encChildren_pf_keeps rest A pw P (encD A pw P cn pfD cwd ct).pf cwd k hk
      simp only [encChildren, herr]
      rw [h2, h1]
end

/-- Claim C9: the deletion of a directory's files is guarded by an
`os.path.isfile` check on the archive path after the compress call returns
(line 86): in a run in which no file exists at the archive path afterwards
(the oracle does not materialise one and none existed before), no deletion
event occurs at this directory and every non-archive file of the directory
is still present, regardless of how the rest of the walk went. -/
theorem treecrypt_C9_guarded_deletion (A : Arch) (pw name : String)
    (pp cwd : List String) (pf fs : List (String × Content))
    (ds : List (String × FTree))
    (hnc : A.compressOk (pp ++ [name]) = false ∨
      A.compressCreates (pp ++ [name]) = false)
    (hfresh : lookupA pf (name ++ sevenZ) = none) :
    (∀ ns, Ev.removeFiles (pp ++ [name]) ns ∉
      (encD A pw pp name pf cwd (FTree.node fs ds)).tr) ∧
    (∀ k, ends7z k = false →
      lookupA (encD A pw pp name pf cwd (FTree.node fs ds)).t.files k =
        lookupA fs k) := by
  by_cases hfe : fs.isEmpty
  · constructor
    · intro ns hmem
      have htr : (encD A pw pp name pf cwd (FTree.node fs ds)).tr =
          Ev.visit (pp ++ [name]) :: (encChildren A pw (pp ++ [name]) fs cwd ds).tr := by
        simp [encD, hfe]
      rw [htr] at hmem
      rcases List.mem_cons.1 hmem with he | he
      · cases he
      · have := (encChildren_shape ds A pw (pp ++ [name]) fs cwd).1 _ he
        simp [pathOf] at this
    · intro k hk
      have ht : (encD A pw pp name pf cwd (FTree.node fs ds)).t.files =
          (encChildren A pw (pp ++ [name]) fs cwd ds).pfD := by
        simp [encD, hfe]
      rw [ht]
      exact encChildren_pf_keeps ds A pw (pp ++ [name]) fs cwd k hk
  · have hcr : compressResult A pw (pp ++ [name]) pf (name ++ sevenZ) fs = none ∨
        compressResult A pw (pp ++ [name]) pf (name ++ sevenZ) fs = some pf := by
      unfold compressResult
      rw [hfresh]
      rcases hnc with hnc | hnc
      · left
        simp [hnc]
      · by_cases hok : A.compressOk (pp ++ [name]) = true
        · right
          simp [hok, hnc]
        · left
          simp [hok]
    rcases hcr with hcr | hcr
    · constructor
      · intro ns hmem
        have hst : (lookupA pf (name ++ sevenZ)).isSome = false := by
          rw [hfresh]
          rfl
        simp [encD, hfe, hcr, hst] at hmem
      · intro k hk
        simp [encD, hfe, hcr]
    · have hdm : (lookupA pf (name ++ sevenZ)).isSome = false := by
        rw [hfresh]
        rfl
      constructor
      · intro ns hmem
        simp only [encD, if_neg hfe, hcr, hdm] at hmem
        simp only [Bool.false_eq_true, if_false, List.append_nil] at hmem
        simp at hmem
        have := (encChildren_shape ds A pw (pp ++ [name]) fs cwd).1 _ hmem
        simp [pathOf] at this
      · intro k hk
        have ht : (encD A pw pp name pf cwd (FTree.node fs ds)).t.files =
            (encChildren A pw (pp ++ [name]) fs cwd ds).pfD := by
          simp [encD, hfe, hcr, hdm, hfresh]
        rw [ht]
        exact encChildren_pf_keeps ds A pw (pp ++ [name]) fs cwd k hk

theorem treecrypt_C9_guarded_deletion_wit :
    (noCreateArch.compressOk ([] ++ [("d")]) = false ∨
      noCreateArch.compressCreates ([] ++ [("d")]) = false) ∧
    lookupA ([] : List (String × Content)) (("d") ++ sevenZ) = none ∧
    (∀ k, ends7z k = false →
      lookupA (encD noCreateArch ("pw") [] ("d") [] []
        (FTree.node [(("a"), Content.bytes [3])] [])).t.files k =
      lookupA [(("a"), Content.bytes [3])] k) :=
  ⟨Or.inr rfl, rfl,
    (treecrypt_C9_guarded_deletion noCreateArch ("pw") ("d") [] [] []
      [(("a"), Content.bytes [3])] [] (Or.inr rfl) rfl).2⟩

/-- Claim C5, as stated, is false: with two archives in one directory and the
first extraction failing, decrypt raises immediately; the second archive is
never attempted (no mkdir step and no extract invocation for it occur). -/
theorem treecrypt_C5_cx :
    (decD failExtractA ("pw") [("r")] [] [] tC5).err = some Err.archiver ∧
    extractNames (decD failExtractA ("pw") [("r")] [] [] tC5).tr = [("a.7z")] ∧
    attemptedAt [("r")] (decD failExtractA ("pw") [("r")] [] [] tC5).tr = [("a.7z")] ∧
    (∀ d, Ev.mkdirAt [("r")] ("b.7z") d ∉ (decD failExtractA ("pw") [("r")] [] [] tC5).tr) ∧
    (∀ d b, Ev.extract [("r")] ("b.7z") d b ∉ (decD failExtractA ("pw") [("r")] [] [] tC5).tr) := by
  refine ⟨rfl, rfl, rfl, ?_, ?_⟩
  · intro d
    intro hmem
    have heval : (decD failExtractA ("pw") [("r")] [] [] tC5).tr =
        [Ev.visit [("r")], Ev.mkdirAt [("r")] ("a.7z") ("a"),
         Ev.extract [("r")] ("a.7z") ("a") true] := rfl
    rw [heval] at hmem
    simp at hmem
  · intro d b hmem
    have heval : (decD failExtractA ("pw") [("r")] [] [] tC5).tr =
        [Ev.visit [("r")], Ev.mkdirAt [("r")] ("a.7z") ("a"),
         Ev.extract [("r")] ("a.7z") ("a") true] := rfl
    rw [heval] at hmem
    simp at hmem

/-- Claim C5, amended: the decrypt loop over a directory's archives aborts at
the first failure: the archives whose processing is attempted always form a
prefix of the matched archive list, the whole list exactly when no failure
occurs; archives after a failure are never attempted and the error
propagates. -/
theorem treecrypt_C5_abort_on_failure (A : Arch) (pw : String) (P : List String)
    (ds : List (String × FTree)) (l : List String) (st : LoopSt)
    (h0 : st.err = none) :
    ∃ k, k ≤ l.length ∧
      extractNames (decLoop A pw P ds l st).tr = extractNames st.tr ++ l.take k ∧
      ((decLoop A pw P ds l st).err = none → k = l.length) :=
  decLoop_extract_take A pw P ds l st h0

theorem treecrypt_C5_abort_on_failure_wit :
    (⟨tC5.files, [], [], [], [], none⟩ : LoopSt).err = none ∧
    ∃ k, k ≤ ([("a.7z"), ("b.7z")] : List String).length ∧
      extractNames (decLoop failExtractA ("pw") [("r")] [] [("a.7z"), ("b.7z")]
        ⟨tC5.files, [], [], [], [], none⟩).tr =
        extractNames ([] : List Ev) ++ ([("a.7z"), ("b.7z")] : List String).take k ∧
      ((decLoop failExtractA ("pw") [("r")] [] [("a.7z"), ("b.7z")]
        ⟨tC5.files, [], [], [], [], none⟩).err = none →
        k = ([("a.7z"), ("b.7z")] : List String).length) :=
  ⟨rfl, treecrypt_C5_abort_on_failure failExtractA ("pw") [("r")] [] [("a.7z"), ("b.7z")]
    ⟨tC5.files, [], [], [], [], none⟩ rfl⟩

theorem ev_props_of_loop (P : List String) (e : Ev)
    (h : pathOf e = P ∧ isVisit e = false ∧
      (∀ a' d', e = Ev.mkdirAt P a' d' → d' = pySplitextRoot a') ∧
      (∀ a' d' b, e = Ev.extract P a' d' b → b = true)) :
    (∀ p a d, e = Ev.mkdirAt p a d → d = pySplitextRoot a) ∧
    (∀ p a d b, e = Ev.extract p a d b → b = true) := by
  obtain ⟨hp, _, hmk, hex⟩ := h
  constructor
  · intro p a d hd
    subst hd
    simp [pathOf] at hp
    subst hp
    exact hmk a d rfl
  · intro p a d b hd
    subst hd
    simp [pathOf] at hp
    subst hp
    exact hex a d b rfl

mutual
theorem decD_ev_props : ∀ (t : FTree) (A : Arch) (pw : String) (P : List String)
    (pending : List (String × Content)) (cwd : List String),
    ∀ e ∈ (decD A pw P pending cwd t).tr,
      (∀ p a d, e = Ev.mkdirAt p a d → d = pySplitextRoot a) ∧
      (∀ p a d b, e = Ev.extract p a d b → b = true)
  | FTree.node fs ds, A, pw, P, pending, cwd => by
    intro e he
    have hvisit : (∀ p a d, Ev.visit P = Ev.mkdirAt p a d → d = pySplitextRoot a) ∧
        (∀ p a d b, Ev.visit P = Ev.extract p a d b → b = true) := by
      constructor
      · intro p a d hd
        cases hd
      · intro p a d b hd
        cases hd
    by_cases hfe0 : (upsertList fs pending).isEmpty
    · have htr : (decD A pw P pending cwd (FTree.node fs ds)).tr =
          Ev.visit P :: (decChildren A pw P [] cwd ds).tr := by
        simp [decD, hfe0]
      rw [htr] at he
      rcases List.mem_cons.1 he with rfl | he
      · exact hvisit
      · exact decChildren_ev_props ds A pw P [] cwd e he
    · obtain ⟨add, hadd, haddp⟩ := decLoop_tr A pw P ds
        (((upsertList fs pending).map Prod.fst).filter ends7z)
        ⟨upsertList fs pending, ds.map Prod.fst, [], [], [], none⟩
      cases hst : (decLoop A pw P ds
          (((upsertList fs pending).map Prod.fst).filter ends7z)
          ⟨upsertList fs pending, ds.map Prod.fst, [], [], [], none⟩).err with
      | some e0 =>
        have htr : (decD A pw P pending cwd (FTree.node fs ds)).tr =
            Ev.visit P :: add := by
          simp only [decD, if_neg hfe0, hst]
          rw [hadd]
          simp
        rw [htr] at he
        rcases List.mem_cons.1 he with rfl | he
        · exact hvisit
        · exact ev_props_of_loop P e (haddp e he)
      | none =>
        have htr : (decD A pw P pending cwd (FTree.node fs ds)).tr =
            Ev.visit P :: (add ++
              (decChildren A pw P
                (decLoop A pw P ds
                  (((upsertList fs pending).map Prod.fst).filter ends7z)
                  ⟨upsertList fs pending, ds.map Prod.fst, [], [], [], none⟩).pend
                cwd ds).tr) := by
          simp only [decD, if_neg hfe0, hst]
          rw [hadd]
          simp
        rw [htr] at he
        rcases List.mem_cons.1 he with rfl | he
        · exact hvisit
        · rcases List.mem_append.1 he with he | he
          · exact ev_props_of_loop P e (haddp e he)
          · exact decChildren_ev_props ds A pw P _ cwd e he

theorem decChildren_ev_props : ∀ (ds : List (String × FTree)) (A : Arch)
    (pw : String) (P : List String)
    (pend : List (String × List (String × Content))) (cwd : List String),
    ∀ e ∈ (decChildren A pw P pend cwd ds).tr,
      (∀ p a d, e = Ev.mkdirAt p a d → d = pySplitextRoot a) ∧
      (∀ p a d b, e = Ev.extract p a d b → b = true)
  | [], A, pw, P, pend, cwd => by
    intro e he
    simp [decChildren] at he
  | (cn, ct) :: rest, A, pw, P, pend, cwd => by
    intro e he
    have h1 := decD_ev_props ct A pw (P ++ [cn]) (getPend pend cn) cwd
    cases herr : (decD A pw (P ++ [cn]) (getPend pend cn) cwd ct).err with
    | some e0 =>
      simp only [decChildren, herr] at he
      exact h1 e he
    | none =>
      simp only [decChildren, herr] at he
      rcases List.mem_append.1 he with he | he
      · exact h1 e he
      · exact decChildren_ev_props rest A pw P pend cwd e he
end

theorem attemptedAt_children_nil (P : List String) (tr : List Ev)
    (h : ∀ e ∈ tr, P.length < (pathOf e).length) : attemptedAt P tr = [] := by
  apply attemptedAt_of_other_paths
  intro e he hp
  have := h e he
  rw [hp] at this
  omega

theorem decD_attempted (A : Arch) (pw : String) (P : List String)
    (pending : List (String × Content)) (cwd : List String)
    (fs : List (String × Content)) (ds : List (String × FTree))
    (herr : (decD A pw P pending cwd (FTree.node fs ds)).err = none) :
    attemptedAt P (decD A pw P pending cwd (FTree.node fs ds)).tr =
      ((upsertList fs pending).map Prod.fst).filter ends7z := by
  by_cases hfe0 : (upsertList fs pending).isEmpty
  · have htr : (decD A pw P pending cwd (FTree.node fs ds)).tr =
        Ev.visit P :: (decChildren A pw P [] cwd ds).tr := by
      simp [decD, hfe0]
    rw [htr]
    show attemptedAt P (decChildren A pw P [] cwd ds).tr = _
    rw [attemptedAt_children_nil P _ (decChildren_shape ds A pw P [] cwd).1]
    rw [List.isEmpty_iff.1 hfe0]
    rfl
  · cases hst : (decLoop A pw P ds
        (((upsertList fs pending).map Prod.fst).filter ends7z)
        ⟨upsertList fs pending, ds.map Prod.fst, [], [], [], none⟩).err with
    | some e0 =>
      have : (decD A pw P pending cwd (FTree.node fs ds)).err = some e0 := by
        simp only [decD, if_neg hfe0, hst]
      rw [this] at herr
      cases herr
    | none =>
      have hloop := decLoop_err_none_tr A pw P ds
        (((upsertList fs pending).map Prod.fst).filter ends7z)
        ⟨upsertList fs pending, ds.map Prod.fst, [], [], [], none⟩ rfl hst
      have htr : (decD A pw P pending cwd (FTree.node fs ds)).tr =
          Ev.visit P :: ((decLoop A pw P ds
            (((upsertList fs pending).map Prod.fst).filter ends7z)
            ⟨upsertList fs pending, ds.map Prod.fst, [], [], [], none⟩).tr ++
            (decChildren A pw P
              (decLoop A pw P ds
                (((upsertList fs pending).map Prod.fst).filter ends7z)
                ⟨upsertList fs pending, ds.map Prod.fst, [], [], [], none⟩).pend
              cwd ds).tr) := by
        simp only [decD, if_neg hfe0, hst]
      rw [htr]
      show attemptedAt P (_ ++ _) = _
      rw [attemptedAt_append, hloop.2,
        attemptedAt_children_nil P _ (decChildren_shape ds A pw P _ cwd).1]
      simp [attemptedAt]

/-- Claim C6, amended: during decrypt exactly the file names ending in `.7z`
are selected (on a successful run the attempted archives at a directory are
precisely the matched names of its listing, in order); the destination
directory name of every archive is the `os.path.splitext` root of the
archive name — equal to the name with the trailing `.7z` removed whenever
some character before that suffix is not a dot — and every archiver extract
is invoked only with the destination present as a directory. -/
theorem treecrypt_C6_selection_dest (A : Arch) (pw : String) (P cwd : List String)
    (pending fs : List (String × Content)) (ds : List (String × FTree))
    (herr : (decD A pw P pending cwd (FTree.node fs ds)).err = none) :
    attemptedAt P (decD A pw P pending cwd (FTree.node fs ds)).tr =
      ((upsertList fs pending).map Prod.fst).filter ends7z ∧
    (∀ e ∈ (decD A pw P pending cwd (FTree.node fs ds)).tr,
      (∀ p a d, e = Ev.mkdirAt p a d → d = pySplitextRoot a) ∧
      (∀ p a d b, e = Ev.extract p a d b → b = true)) ∧
    (∀ a : String, ends7z a = true → goodDirName (strip7z a) = true →
      pySplitextRoot a = strip7z a) :=
  ⟨decD_attempted A pw P pending cwd fs ds herr,
    decD_ev_props (FTree.node fs ds) A pw P pending cwd,
    fun a h7 hg => pySplitextRoot_eq_strip7z a h7 hg⟩

theorem treecrypt_C6_selection_dest_wit :
    (decD idealArch ("pw") [("r")] [] [] tC5).err = none ∧
    attemptedAt [("r")] (decD idealArch ("pw") [("r")] [] [] tC5).tr =
      [("a.7z"), ("b.7z")] :=
  ⟨rfl,
    ((treecrypt_C6_selection_dest idealArch ("pw") [("r")] [] [] tC5.files []
      rfl).1).trans rfl⟩

/-- Claim C6, as stated, is false on a file named exactly `.7z`: the name is
selected (it ends in `.7z`), but the destination the code computes is the
whole name `.7z` rather than the name with the extension stripped (the
empty string), because `os.path.splitext` treats a leading-dot file as
having no extension; `mkdir -p` then fails on the existing file. -/
theorem treecrypt_C6_cx :
    Ev.mkdirAt [("r")] (".7z") (".7z") ∈
      (decD idealArch ("pw") [("r")] [] [] tC6).tr ∧
    strip7z (".7z") = ("") ∧
    ((".7z") : String) ≠ ("") ∧
    (decD idealArch ("pw") [("r")] [] [] tC6).err = some Err.fsOp := by
  refine ⟨by decide, rfl, by decide, rfl⟩

/-- Claim C4 is half right: encrypt returns the empty flag correctly, but
decrypt initialises `empty = True` on line 97 and never reassigns it, so
decrypt returns `True` even for a directory full of files.  The run below
shows a directory with one archive: decrypt succeeds, acts on the file, and
still returns an empty flag of `True`. -/
theorem treecrypt_C4_empty_flag_run :
    tC4.files ≠ [] ∧
    (decD idealArch ("pw") [("r")] [] [] tC4).err = none ∧
    (decD idealArch ("pw") [("r")] [] [] tC4).empty = true ∧
    (encD idealArch ("pw") [] ("r") [] []
      (FTree.node [(("b"), Content.bytes [2])] [])).empty = false ∧
    (encD idealArch ("pw") [] ("r") [] [] (FTree.node [] [])).empty = true := by
  refine ⟨?_, rfl, rfl, rfl, rfl⟩
  intro h
  simp [tC4] at h

/-- Claim C3 is right and the code is wrong: line 82 reads
`call('rm -rf ...')` without the f-string prefix, so the shell command
contains the literal text of the format placeholder and never removes the
pre-existing archive.  In the run below a stale archive sits at the archive
path: the operation neither fails fast nor removes it; the archiver is
invoked with the stale file still present (the compress event records it),
no error is raised, and the stale archive's entries survive inside the
updated archive. -/
theorem treecrypt_C3_stale_archive_run :
    (lookupA pfC3 (("d") ++ sevenZ)).isSome = true ∧
    Ev.rmBraces [("d")] ∈
      (encD idealArch ("pw") [] ("d") pfC3 []
        (FTree.node [(("a"), Content.bytes [1])] [])).tr ∧
    Ev.compress [("d")] true ∈
      (encD idealArch ("pw") [] ("d") pfC3 []
        (FTree.node [(("a"), Content.bytes [1])] [])).tr ∧
    (encD idealArch ("pw") [] ("d") pfC3 []
      (FTree.node [(("a"), Content.bytes [1])] [])).err = none ∧
    lookupA (encD idealArch ("pw") [] ("d") pfC3 []
        (FTree.node [(("a"), Content.bytes [1])] [])).pf (("d") ++ sevenZ) =
      some (Content.archive ("pw")
        [(("x"), Content.bytes [9]), (("a"), Content.bytes [1])]) := by
  refine ⟨rfl, by decide, by decide, rfl, rfl⟩
